import Mathlib

/-!
Verification of the crossword-generator core (Rust sources under
`src/wasm/src/`): a shallow embedding in Lean 4 of the SAT encoder
(`encoder.rs`), the solver driver's arithmetic (`solver.rs`), the puzzle
assembler (`solution.rs`) and the lexicon filter (`dictionary.rs`),
together with theorems about the embedded definitions.

Modelling conventions:
* CNF variables are natural numbers (the Rust code mints them from a
  `var_counter` starting at 1); a literal is a variable paired with its
  polarity, a clause is a list of literals, a formula a list of clauses.
* Rust `HashMap`s are modelled as association lists iterated in insertion
  order (Rust's iteration order is unspecified; every property proved here
  is insensitive to that order).
* Machine integers (`usize`) are modelled as `Nat`; the Rust code never
  subtracts below zero on the paths embedded here, and each guarded
  subtraction is reproduced with the same guard.
* Fallible code (indexing that can panic) is modelled with `Option`.
-/

/-- A CNF literal: variable id with polarity (`true` = positive). -/
abbrev Lit := Nat × Bool

/-- A CNF clause: disjunction of literals. -/
abbrev Clause := List Lit

/-- A CNF formula: conjunction of clauses. -/
abbrev Formula := List Clause

/-- A truth assignment over variable ids. -/
abbrev Assignment := Nat → Bool

/-- Positive literal of a variable (Rust `var.positive()`). -/
def litPos (v : Nat) : Lit := (v, true)

/-- Negative literal of a variable (Rust `var.negative()`). -/
def litNeg (v : Nat) : Lit := (v, false)

/-- A clause is satisfied when some literal agrees with the assignment. -/
def satClause (a : Assignment) (c : Clause) : Bool :=
  c.any (fun l => a l.1 == l.2)

/-- A formula is satisfied when every clause is. -/
def satFormula (a : Assignment) (f : Formula) : Bool :=
  f.all (fun c => satClause a c)

/-- How many of the listed variables are true (positions counted with
multiplicity, matching the sequential counter's view of its input list). -/
def countTrue (a : Assignment) (vars : List Nat) : Nat :=
  (vars.filter (fun v => a v)).length

/-- The mutable core of Rust `CrosswordEncoder`: the clause buffer and the
fresh-variable counter (`formula` / `var_counter` fields). -/
structure Enc where
  varCounter : Nat
  formula : Formula
deriving Repr, DecidableEq

/-- Rust `CrosswordEncoder::new_var`: returns the current counter value as a
variable and increments the counter (`Var::from_dimacs(var_counter)`). -/
def encNewVar (st : Enc) : Enc × Nat :=
  (⟨st.varCounter + 1, st.formula⟩, st.varCounter)

/-- Rust `formula.add_clause(..)`: append one clause. -/
def encAddClause (st : Enc) (c : Clause) : Enc :=
  ⟨st.varCounter, st.formula ++ [c]⟩

/-- Formula `g` extends formula `f` by appended clauses: clause buffers in
the encoder only ever grow. -/
def FormulaExt (f g : Formula) : Prop := ∃ t, g = f ++ t

theorem formulaExt_refl (f : Formula) : FormulaExt f f := ⟨[], by simp⟩

theorem formulaExt_trans {f g h : Formula}
    (h1 : FormulaExt f g) (h2 : FormulaExt g h) : FormulaExt f h := by
  obtain ⟨t1, rfl⟩ := h1
  obtain ⟨t2, rfl⟩ := h2
  exact ⟨t1 ++ t2, by simp⟩

theorem formulaExt_addClause (st : Enc) (c : Clause) :
    FormulaExt st.formula (encAddClause st c).formula := ⟨[c], rfl⟩

theorem formulaExt_newVar (st : Enc) :
    FormulaExt st.formula (encNewVar st).1.formula := formulaExt_refl _

theorem satFormula_append {a : Assignment} {f g : Formula} :
    satFormula a (f ++ g) = (satFormula a f && satFormula a g) := by
  simp [satFormula, List.all_append]

theorem satFormula_mono {a : Assignment} {f g : Formula}
    (hext : FormulaExt f g) (h : satFormula a g = true) :
    satFormula a f = true := by
  obtain ⟨t, rfl⟩ := hext
  rw [satFormula_append, Bool.and_eq_true] at h
  exact h.1

theorem mem_of_formulaExt {c : Clause} {f g : Formula}
    (hext : FormulaExt f g) (h : c ∈ f) : c ∈ g := by
  obtain ⟨t, rfl⟩ := hext
  exact List.mem_append_left _ h

theorem satClause_of_mem {a : Assignment} {c : Clause} {f : Formula}
    (hm : c ∈ f) (h : satFormula a f = true) : satClause a c = true := by
  rw [satFormula, List.all_eq_true] at h
  exact h c hm

theorem countTrue_append (a : Assignment) (l : List Nat) (x : Nat) :
    countTrue a (l ++ [x]) = countTrue a l + (if a x then 1 else 0) := by
  by_cases h : a x <;> simp [countTrue, List.filter_append, h]

theorem countTrue_le_append (a : Assignment) (l : List Nat) (x : Nat) :
    countTrue a l ≤ countTrue a (l ++ [x]) := by
  rw [countTrue_append]
  omega

/-! ### The sequential counter `at_least_k` (encoder.rs lines 317-390)

Rust builds a triangular table `aux[i][j]` of optional variables,
`aux[i][j]` meaning "at least `j` of the first `i` input variables are
true", and asserts `aux[n][k]`.  The embedding reproduces the loop
structure: `alkEntry` is the body of the inner `j` loop, `alkRow` the inner
loop itself (producing row `i` from row `i-1`), `alkLoop` the outer `i`
loop, `atLeastK` the whole function including the early returns for
`k == 0 || k > n` and `k == 1`. -/

/-- Body of the inner loop of `at_least_k` for one `j` (encoder.rs 346-382):
mint `aux[i][j]`, store it in the row, and emit the defining clauses. -/
def alkEntry (prevRow : List (Option Nat)) (x i : Nat)
    (acc : Enc × List (Option Nat)) (j : Nat) : Enc × List (Option Nat) :=
  let p := encNewVar acc.1
  let st := p.1
  let v := p.2
  let row := acc.2.set j (some v)
  if j = 0 then (encAddClause st [litPos v], row)
  else if j ≤ i - 1 ∧ j - 1 < i - 1 then
    match prevRow.getD j none, prevRow.getD (j - 1) none with
    | some pj, some pjm1 =>
      let st := encAddClause st [litNeg v, litPos pj, litPos pjm1]
      let st := encAddClause st [litNeg v, litPos pj, litPos x]
      let st := encAddClause st [litNeg pj, litPos x, litPos v]
      let st := encAddClause st [litNeg pjm1, litNeg x, litPos v]
      (st, row)
    | some pj, none =>
      let st := encAddClause st [litNeg v, litPos pj]
      let st := encAddClause st [litNeg pj, litPos v]
      (st, row)
    | none, _ => (st, row)
  else if j = i then
    match prevRow.getD (j - 1) none with
    | some prev =>
      let st := encAddClause st [litNeg v, litPos prev]
      let st := encAddClause st [litNeg v, litPos x]
      let st := encAddClause st [litNeg prev, litNeg x, litPos v]
      (st, row)
    | none => (st, row)
  else (st, row)

/-- The inner `j` loop of `at_least_k`: builds aux row `i` (entries
`j = 0 .. min k i`) from row `i-1`, starting from an all-`none` row of
width `k+1` exactly as Rust pre-fills `aux` with `None`. -/
def alkRow (st : Enc) (aux : List (List (Option Nat))) (x i k : Nat) :
    Enc × List (Option Nat) :=
  (List.range (min k i + 1)).foldl (alkEntry (aux.getD (i - 1) []) x i)
    (st, List.replicate (k + 1) (none : Option Nat))

/-- The outer `i` loop of `at_least_k` (`for i in 1..=n`), accumulating the
aux rows; `x` is `vars[i-1]`. -/
def alkLoop (st : Enc) (vars : List Nat) (k : Nat)
    (row0 : List (Option Nat)) : Enc × List (List (Option Nat)) :=
  (List.range vars.length).foldl
    (fun acc i0 =>
      let i := i0 + 1
      let x := vars.getD (i - 1) 0
      let r := alkRow acc.1 acc.2 x i k
      (r.1, acc.2 ++ [r.2]))
    (st, [row0])

/-- Rust `CrosswordEncoder::at_least_k` (encoder.rs 317-390). -/
def atLeastK (st : Enc) (vars : List Nat) (k : Nat) : Enc :=
  let n := vars.length
  if k = 0 ∨ n < k then st
  else if k = 1 then encAddClause st (vars.map litPos)
  else
    let p := encNewVar st
    let st1 := encAddClause p.1 [litPos p.2]
    let row0 := (List.replicate (k + 1) (none : Option Nat)).set 0 (some p.2)
    let r := alkLoop st1 vars k row0
    match (r.2.getD vars.length []).getD k none with
    | some finalVar => encAddClause r.1 [litPos finalVar]
    | none => r.1

/-! ### Soundness of the sequential counter

Any assignment satisfying the emitted clauses (including the asserted
`aux[n][k]` unit) makes at least `k` of the input variables true. -/

theorem satClause_one {a : Assignment} {v1 : Nat} {b1 : Bool} :
    satClause a [(v1, b1)] = true ↔ a v1 = b1 := by
  simp [satClause]

theorem satClause_two {a : Assignment} {v1 v2 : Nat} {b1 b2 : Bool} :
    satClause a [(v1, b1), (v2, b2)] = true ↔ a v1 = b1 ∨ a v2 = b2 := by
  simp [satClause]

theorem satClause_three {a : Assignment} {v1 v2 v3 : Nat} {b1 b2 b3 : Bool} :
    satClause a [(v1, b1), (v2, b2), (v3, b3)] = true ↔
      a v1 = b1 ∨ a v2 = b2 ∨ a v3 = b3 := by
  simp [satClause]

theorem countTrue_pos {a : Assignment} {v : Nat} {vars : List Nat}
    (hm : v ∈ vars) (ha : a v = true) : 1 ≤ countTrue a vars := by
  have : v ∈ vars.filter (fun w => a w) := List.mem_filter.mpr ⟨hm, by simp [ha]⟩
  have := List.length_pos.mpr (List.ne_nil_of_mem this)
  simpa [countTrue] using this

theorem getD_set_self {l : List (Option Nat)} {t : Nat} (h : t < l.length)
    (v : Nat) : (l.set t (some v)).getD t none = some v := by
  rw [List.getD_eq_getElem?_getD, List.getElem?_set_self h]
  rfl

theorem getD_set_ne {l : List (Option Nat)} {t j : Nat} (h : t ≠ j)
    (o : Option Nat) : (l.set t o).getD j none = l.getD j none := by
  rw [List.getD_eq_getElem?_getD, List.getElem?_set_ne h,
    ← List.getD_eq_getElem?_getD]

theorem getD_replicate_none (n j : Nat) :
    (List.replicate n (none : Option Nat)).getD j none = none := by
  rw [List.getD_eq_getElem?_getD, List.getElem?_replicate]
  split <;> rfl

/-- Row soundness: every populated entry `j` of an aux row that is true
under `a` certifies that at least `j` of the listed variables are true. -/
def RowSound (a : Assignment) (row : List (Option Nat))
    (pref : List Nat) : Prop :=
  ∀ j v, row.getD j none = some v → a v = true → j ≤ countTrue a pref

/-- Row completeness: entries `0 .. min k m` of an aux row are populated. -/
def RowFull (k m : Nat) (row : List (Option Nat)) : Prop :=
  ∀ j, j ≤ min k m → (row.getD j none).isSome = true

theorem alkEntry_eq_zero (prevRow : List (Option Nat)) (x i : Nat)
    (st0 : Enc) (row : List (Option Nat)) :
    alkEntry prevRow x i (st0, row) 0 =
      (encAddClause ⟨st0.varCounter + 1, st0.formula⟩ [litPos st0.varCounter],
       row.set 0 (some st0.varCounter)) := by
  simp [alkEntry, encNewVar]

theorem alkEntry_eq_mid {prevRow : List (Option Nat)} {x i t : Nat}
    {pj pjm1 : Nat} (st0 : Enc) (row : List (Option Nat))
    (ht0 : ¬ t = 0) (hcond : t ≤ i - 1 ∧ t - 1 < i - 1)
    (hpj : prevRow.getD t none = some pj)
    (hpjm1 : prevRow.getD (t - 1) none = some pjm1) :
    alkEntry prevRow x i (st0, row) t =
      (encAddClause (encAddClause (encAddClause (encAddClause
          ⟨st0.varCounter + 1, st0.formula⟩
          [litNeg st0.varCounter, litPos pj, litPos pjm1])
          [litNeg st0.varCounter, litPos pj, litPos x])
          [litNeg pj, litPos x, litPos st0.varCounter])
          [litNeg pjm1, litNeg x, litPos st0.varCounter],
       row.set t (some st0.varCounter)) := by
  simp only [alkEntry, encNewVar]
  rw [if_neg ht0, if_pos hcond, hpj, hpjm1]

theorem alkEntry_eq_diag {prevRow : List (Option Nat)} {x i t : Nat}
    {prev : Nat} (st0 : Enc) (row : List (Option Nat))
    (ht0 : ¬ t = 0) (hcond : ¬ (t ≤ i - 1 ∧ t - 1 < i - 1)) (hti : t = i)
    (hprev : prevRow.getD (t - 1) none = some prev) :
    alkEntry prevRow x i (st0, row) t =
      (encAddClause (encAddClause (encAddClause
          ⟨st0.varCounter + 1, st0.formula⟩
          [litNeg st0.varCounter, litPos prev])
          [litNeg st0.varCounter, litPos x])
          [litNeg prev, litNeg x, litPos st0.varCounter],
       row.set t (some st0.varCounter)) := by
  simp only [alkEntry, encNewVar]
  rw [if_neg ht0, if_neg hcond, if_pos hti, hprev]

/-- Invariant of the inner loop of `at_least_k` after `t` entries have been
processed: the formula has only grown, the row has width `k+1`, entries
below `t` are populated, entries from `t` on are still `none`, and every
populated true entry bounds the count of true variables in `pref2`. -/
def AlkRowInv (st : Enc) (pref2 : List Nat) (k t : Nat)
    (q : Enc × List (Option Nat)) : Prop :=
  FormulaExt st.formula q.1.formula ∧
  q.2.length = k + 1 ∧
  (∀ j, j < t → (q.2.getD j none).isSome = true) ∧
  (∀ j, t ≤ j → q.2.getD j none = none) ∧
  (∀ a, satFormula a q.1.formula = true →
    ∀ j v, q.2.getD j none = some v → a v = true → j ≤ countTrue a pref2)


theorem alkRow_step (st : Enc) (prevRow : List (Option Nat))
    (x i k t : Nat) (pref : List Nat) (q : Enc × List (Option Nat))
    (hi : 1 ≤ i) (ht : t ≤ min k i)
    (hfull : RowFull k (i - 1) prevRow)
    (hsound : ∀ a, satFormula a st.formula = true → RowSound a prevRow pref)
    (hinv : AlkRowInv st (pref ++ [x]) k t q) :
    AlkRowInv st (pref ++ [x]) k (t + 1) (alkEntry prevRow x i q t) := by
  obtain ⟨st0, row⟩ := q
  obtain ⟨hext, hlen, hsome, hnone, hsnd⟩ := hinv
  have hext : FormulaExt st.formula st0.formula := hext
  have hlen : row.length = k + 1 := hlen
  have hsome : ∀ j, j < t → (row.getD j none).isSome = true := hsome
  have hnone : ∀ j, t ≤ j → row.getD j none = none := hnone
  have hsnd : ∀ a, satFormula a st0.formula = true →
      ∀ j v, row.getD j none = some v → a v = true →
        j ≤ countTrue a (pref ++ [x]) := hsnd
  have htk : t ≤ k := le_trans ht (Nat.min_le_left k i)
  have hti' : t ≤ i := le_trans ht (Nat.min_le_right k i)
  have htlen : t < row.length := by omega
  by_cases ht0 : t = 0
  · subst ht0
    rw [alkEntry_eq_zero]
    refine ⟨?_, ?_, ?_, ?_, ?_⟩
    · exact formulaExt_trans hext ⟨[[litPos st0.varCounter]], by
        simp [encAddClause]⟩
    · simpa using hlen
    · intro j hj
      have hj0 : j = 0 := by omega
      subst hj0
      rw [getD_set_self htlen]
      rfl
    · intro j hj
      rw [getD_set_ne (by omega)]
      exact hnone j (by omega)
    · intro a hsat j w hget haw
      by_cases hjt : j = 0
      · omega
      · rw [getD_set_ne (by omega)] at hget
        rw [hnone j (by omega)] at hget
        exact absurd hget (by simp)
  · by_cases hcond : t ≤ i - 1 ∧ t - 1 < i - 1
    · -- middle case: both aux[i-1][t] and aux[i-1][t-1] are populated
      have hjk : t ≤ min k (i - 1) := Nat.le_min.mpr ⟨htk, hcond.1⟩
      obtain ⟨pj, hpj⟩ := Option.isSome_iff_exists.mp (hfull t hjk)
      obtain ⟨pjm1, hpjm1⟩ :=
        Option.isSome_iff_exists.mp (hfull (t - 1) (le_trans (by omega) hjk))
      rw [alkEntry_eq_mid st0 row ht0 hcond hpj hpjm1]
      have hform : (encAddClause (encAddClause (encAddClause (encAddClause
          ⟨st0.varCounter + 1, st0.formula⟩
          [litNeg st0.varCounter, litPos pj, litPos pjm1])
          [litNeg st0.varCounter, litPos pj, litPos x])
          [litNeg pj, litPos x, litPos st0.varCounter])
          [litNeg pjm1, litNeg x, litPos st0.varCounter]).formula =
          st0.formula ++
            [[litNeg st0.varCounter, litPos pj, litPos pjm1],
             [litNeg st0.varCounter, litPos pj, litPos x],
             [litNeg pj, litPos x, litPos st0.varCounter],
             [litNeg pjm1, litNeg x, litPos st0.varCounter]] := by
        simp [encAddClause]
      refine ⟨?_, ?_, ?_, ?_, ?_⟩
      · rw [hform]
        exact formulaExt_trans hext ⟨_, rfl⟩
      · simpa using hlen
      · intro j hj
        by_cases hjt : j = t
        · subst hjt
          rw [getD_set_self htlen]
          rfl
        · rw [getD_set_ne (Ne.symm hjt)]
          exact hsome j (by omega)
      · intro j hj
        rw [getD_set_ne (by omega)]
        exact hnone j (by omega)
      · intro a hsat j w hget haw
        rw [hform] at hsat
        have hsat0 : satFormula a st0.formula = true :=
          satFormula_mono ⟨_, rfl⟩ hsat
        by_cases hjt : j = t
        · subst hjt
          rw [getD_set_self htlen] at hget
          injection hget with hwv
          have hc1 : satClause a
              [litNeg st0.varCounter, litPos pj, litPos pjm1] = true :=
            satClause_of_mem (by simp) hsat
          have hc2 : satClause a
              [litNeg st0.varCounter, litPos pj, litPos x] = true :=
            satClause_of_mem (by simp) hsat
          simp only [litNeg, litPos] at hc1 hc2
          rw [satClause_three] at hc1 hc2
          have hsatst : satFormula a st.formula = true :=
            satFormula_mono hext hsat0
          have hav : a st0.varCounter = true := by rw [hwv]; exact haw
          rcases hc1 with h | h | h
          · rw [hav] at h
            exact absurd h (by simp)
          · calc j ≤ countTrue a pref := hsound a hsatst j pj hpj h
              _ ≤ countTrue a (pref ++ [x]) := countTrue_le_append a pref x
          · rcases hc2 with h2 | h2 | h2
            · rw [hav] at h2
              exact absurd h2 (by simp)
            · calc j ≤ countTrue a pref := hsound a hsatst j pj hpj h2
                _ ≤ countTrue a (pref ++ [x]) := countTrue_le_append a pref x
            · have hb := hsound a hsatst (j - 1) pjm1 hpjm1 h
              rw [countTrue_append, if_pos h2]
              omega
        · rw [getD_set_ne (Ne.symm hjt)] at hget
          exact hsnd a hsat0 j w hget haw
    · -- diagonal case: t = i (the only remaining case given t ≤ min k i)
      have hti : t = i := by omega
      have hik : i ≤ k := by omega
      have hprevk : t - 1 ≤ min k (i - 1) := Nat.le_min.mpr ⟨by omega, by omega⟩
      obtain ⟨prev, hprev⟩ := Option.isSome_iff_exists.mp (hfull (t - 1) hprevk)
      rw [alkEntry_eq_diag st0 row ht0 hcond hti hprev]
      have hform : (encAddClause (encAddClause (encAddClause
          ⟨st0.varCounter + 1, st0.formula⟩
          [litNeg st0.varCounter, litPos prev])
          [litNeg st0.varCounter, litPos x])
          [litNeg prev, litNeg x, litPos st0.varCounter]).formula =
          st0.formula ++
            [[litNeg st0.varCounter, litPos prev],
             [litNeg st0.varCounter, litPos x],
             [litNeg prev, litNeg x, litPos st0.varCounter]] := by
        simp [encAddClause]
      refine ⟨?_, ?_, ?_, ?_, ?_⟩
      · rw [hform]
        exact formulaExt_trans hext ⟨_, rfl⟩
      · simpa using hlen
      · intro j hj
        by_cases hjt : j = t
        · subst hjt
          rw [getD_set_self htlen]
          rfl
        · rw [getD_set_ne (Ne.symm hjt)]
          exact hsome j (by omega)
      · intro j hj
        rw [getD_set_ne (by omega)]
        exact hnone j (by omega)
      · intro a hsat j w hget haw
        rw [hform] at hsat
        have hsat0 : satFormula a st0.formula = true :=
          satFormula_mono ⟨_, rfl⟩ hsat
        by_cases hjt : j = t
        · subst hjt
          rw [getD_set_self htlen] at hget
          injection hget with hwv
          have hc1 : satClause a [litNeg st0.varCounter, litPos prev] = true :=
            satClause_of_mem (by simp) hsat
          have hc2 : satClause a [litNeg st0.varCounter, litPos x] = true :=
            satClause_of_mem (by simp) hsat
          simp only [litNeg, litPos] at hc1 hc2
          rw [satClause_two] at hc1 hc2
          have hsatst : satFormula a st.formula = true :=
            satFormula_mono hext hsat0
          have hav : a st0.varCounter = true := by rw [hwv]; exact haw
          rcases hc1 with h | h
          · rw [hav] at h
            exact absurd h (by simp)
          · rcases hc2 with h2 | h2
            · rw [hav] at h2
              exact absurd h2 (by simp)
            · have hb := hsound a hsatst (j - 1) prev hprev h
              rw [countTrue_append, if_pos h2]
              omega
        · rw [getD_set_ne (Ne.symm hjt)] at hget
          exact hsnd a hsat0 j w hget haw

theorem alkRow_inv_fold (st : Enc) (prevRow : List (Option Nat))
    (x i k : Nat) (pref : List Nat)
    (hi : 1 ≤ i)
    (hfull : RowFull k (i - 1) prevRow)
    (hsound : ∀ a, satFormula a st.formula = true → RowSound a prevRow pref) :
    ∀ t, t ≤ min k i + 1 →
      AlkRowInv st (pref ++ [x]) k t
        ((List.range t).foldl (alkEntry prevRow x i)
          (st, List.replicate (k + 1) (none : Option Nat))) := by
  intro t
  induction t with
  | zero =>
    intro _
    simp only [List.range_zero, List.foldl_nil]
    refine ⟨formulaExt_refl _, by simp, ?_, ?_, ?_⟩
    · intro j hj
      omega
    · intro j _
      exact getD_replicate_none _ _
    · intro a _ j v hget _
      rw [getD_replicate_none] at hget
      exact absurd hget (by simp)
  | succ t ih =>
    intro htle
    rw [List.range_succ, List.foldl_append, List.foldl_cons, List.foldl_nil]
    exact alkRow_step st prevRow x i k t pref _ hi (by omega) hfull hsound
      (ih (by omega))

theorem alkRow_spec (st : Enc) (aux : List (List (Option Nat)))
    (x i k : Nat) (pref : List Nat)
    (hi : 1 ≤ i)
    (hfull : RowFull k (i - 1) (aux.getD (i - 1) []))
    (hsound : ∀ a, satFormula a st.formula = true →
      RowSound a (aux.getD (i - 1) []) pref) :
    FormulaExt st.formula (alkRow st aux x i k).1.formula ∧
    RowFull k i (alkRow st aux x i k).2 ∧
    (∀ a, satFormula a (alkRow st aux x i k).1.formula = true →
      RowSound a (alkRow st aux x i k).2 (pref ++ [x])) := by
  have h := alkRow_inv_fold st (aux.getD (i - 1) []) x i k pref hi hfull hsound
    (min k i + 1) (le_refl _)
  obtain ⟨hext, _, hsome, _, hsnd⟩ := h
  refine ⟨hext, ?_, hsnd⟩
  intro j hj
  exact hsome j (by omega)

/-- Invariant of the outer loop of `at_least_k` after `t` input variables
have been processed: the last aux row built is row `t`, populated up to
`min k t`, and sound for the first `t` inputs. -/
def AlkLoopInv (st : Enc) (vars : List Nat) (k t : Nat)
    (q : Enc × List (List (Option Nat))) : Prop :=
  FormulaExt st.formula q.1.formula ∧
  q.2.length = t + 1 ∧
  RowFull k t (q.2.getD t []) ∧
  (∀ a, satFormula a q.1.formula = true →
    RowSound a (q.2.getD t []) (vars.take t))

theorem alkLoop_inv_fold (st : Enc) (vars : List Nat) (k : Nat)
    (row0 : List (Option Nat))
    (hfull0 : RowFull k 0 row0)
    (hsound0 : ∀ a, satFormula a st.formula = true → RowSound a row0 []) :
    ∀ t, t ≤ vars.length →
      AlkLoopInv st vars k t
        ((List.range t).foldl
          (fun acc i0 =>
            let i := i0 + 1
            let x := vars.getD (i - 1) 0
            let r := alkRow acc.1 acc.2 x i k
            (r.1, acc.2 ++ [r.2]))
          (st, [row0])) := by
  intro t
  induction t with
  | zero =>
    intro _
    simp only [List.range_zero, List.foldl_nil]
    exact ⟨formulaExt_refl _, by simp, hfull0, fun a ha => hsound0 a ha⟩
  | succ t ih =>
    intro htle
    rw [List.range_succ, List.foldl_append, List.foldl_cons, List.foldl_nil]
    set q := (List.range t).foldl
      (fun acc i0 =>
        let i := i0 + 1
        let x := vars.getD (i - 1) 0
        let r := alkRow acc.1 acc.2 x i k
        (r.1, acc.2 ++ [r.2]))
      (st, [row0]) with hq
    obtain ⟨hext, hlen, hfull, hsnd⟩ := ih (by omega)
    show AlkLoopInv st vars k (t + 1)
      ((alkRow q.1 q.2 (vars.getD t 0) (t + 1) k).1,
       q.2 ++ [(alkRow q.1 q.2 (vars.getD t 0) (t + 1) k).2])
    obtain ⟨hext2, hfull2, hsnd2⟩ :=
      alkRow_spec q.1 q.2 (vars.getD t 0) (t + 1) k (vars.take t)
        (by omega) (by simpa using hfull) (by simpa using hsnd)
    have hrowat : (q.2 ++
        [(alkRow q.1 q.2 (vars.getD t 0) (t + 1) k).2]).getD (t + 1) [] =
        (alkRow q.1 q.2 (vars.getD t 0) (t + 1) k).2 := by
      rw [List.getD_eq_getElem?_getD]
      rw [show t + 1 = q.2.length from hlen.symm]
      rw [List.getElem?_concat_length]
      rfl
    have htake : List.take (t + 1) vars = List.take t vars ++ [vars.getD t 0] := by
      have ht' : t < vars.length := by omega
      rw [List.take_succ, List.getElem?_eq_getElem ht']
      have hgd : vars.getD t 0 = vars[t] := by
        rw [List.getD_eq_getElem?_getD, List.getElem?_eq_getElem ht']
        rfl
      rw [hgd]
      rfl
    refine ⟨formulaExt_trans hext hext2, by simp [hlen], ?_, ?_⟩
    · show RowFull k (t + 1) ((q.2 ++
        [(alkRow q.1 q.2 (vars.getD t 0) (t + 1) k).2]).getD (t + 1) [])
      rw [hrowat]
      exact hfull2
    · intro a ha
      show RowSound a ((q.2 ++
        [(alkRow q.1 q.2 (vars.getD t 0) (t + 1) k).2]).getD (t + 1) [])
        (List.take (t + 1) vars)
      rw [hrowat, htake]
      exact hsnd2 a ha

/-- General soundness of the sequential counter: whenever `1 ≤ k ≤ n`, any
assignment satisfying the clauses of the output formula (which includes
the clauses of the input formula plus the emitted counter clauses and the
asserted `aux[n][k]` unit) makes at least `k` of the inputs true. -/
theorem atLeastK_sound_gen (st : Enc) (vars : List Nat) (k : Nat)
    (a : Assignment) (hk1 : 1 ≤ k) (hkn : k ≤ vars.length)
    (hsat : satFormula a (atLeastK st vars k).formula = true) :
    k ≤ countTrue a vars := by
  by_cases hk : k = 1
  · subst hk
    rw [atLeastK] at hsat
    rw [if_neg (by omega)] at hsat
    rw [if_pos rfl] at hsat
    have hc : satClause a (vars.map litPos) = true :=
      satClause_of_mem (by simp [encAddClause]) hsat
    rw [satClause, List.any_eq_true] at hc
    obtain ⟨l, hl, hal⟩ := hc
    obtain ⟨v, hv, rfl⟩ := List.mem_map.mp hl
    exact countTrue_pos hv (by simpa [litPos] using hal)
  · simp only [atLeastK] at hsat
    rw [if_neg (show ¬ (k = 0 ∨ vars.length < k) by omega)] at hsat
    rw [if_neg hk] at hsat
    set st1 := encAddClause (encNewVar st).1 [litPos (encNewVar st).2] with hst1
    set row0 := (List.replicate (k + 1) (none : Option Nat)).set 0
      (some (encNewVar st).2) with hrow0
    have hfull0 : RowFull k 0 row0 := by
      intro j hj
      have hj0 : j = 0 := by omega
      subst hj0
      rw [hrow0, getD_set_self (by simp)]
      rfl
    have hsound0 : ∀ b, satFormula b st1.formula = true → RowSound b row0 [] := by
      intro b _ j v hget _
      by_cases hj0 : j = 0
      · subst hj0
        simp [countTrue]
      · rw [hrow0, getD_set_ne (by omega), getD_replicate_none] at hget
        exact absurd hget (by simp)
    have hloop := alkLoop_inv_fold st1 vars k row0 hfull0 hsound0
      vars.length (le_refl _)
    obtain ⟨hext, hlen, hfull, hsnd⟩ := hloop
    have hkmin : k ≤ min k vars.length := Nat.le_min.mpr ⟨le_refl _, hkn⟩
    obtain ⟨fv, hfv⟩ := Option.isSome_iff_exists.mp (hfull k hkmin)
    have halk : alkLoop st1 vars k row0 = (List.range vars.length).foldl
        (fun acc i0 =>
          let i := i0 + 1
          let x := vars.getD (i - 1) 0
          let r := alkRow acc.1 acc.2 x i k
          (r.1, acc.2 ++ [r.2]))
        (st1, [row0]) := rfl
    rw [← halk] at hext hlen hfull hsnd hfv
    rw [hfv] at hsat
    have hsat2 : satFormula a
        (encAddClause (alkLoop st1 vars k row0).1 [litPos fv]).formula = true :=
      hsat
    have hafv : a fv = true := by
      have hc : satClause a [litPos fv] = true :=
        satClause_of_mem (by simp [encAddClause]) hsat2
      rw [litPos, satClause_one] at hc
      exact hc
    have hsatloop : satFormula a (alkLoop st1 vars k row0).1.formula = true :=
      satFormula_mono (formulaExt_addClause _ _) hsat2
    have := hsnd a hsatloop k fv hfv hafv
    rwa [List.take_length] at this

/-- Claim C2: for every list of `n` input variables and every threshold `k`
with `1 ≤ k ≤ n`, every truth assignment that satisfies all clauses emitted
by `at_least_k(vars, k)` — the encoder starts here from an empty clause
buffer, so the output formula consists exactly of the emitted clauses,
including the asserted final `aux[n][k]` unit clause — makes at least `k`
of the `n` input variables true. -/
theorem c2_at_least_k_sound (c0 : Nat) (vars : List Nat) (k : Nat)
    (a : Assignment) (hk1 : 1 ≤ k) (hkn : k ≤ vars.length)
    (hsat : satFormula a (atLeastK ⟨c0, []⟩ vars k).formula = true) :
    k ≤ countTrue a vars :=
  atLeastK_sound_gen ⟨c0, []⟩ vars k a hk1 hkn hsat

/-- Witness for C2 at a concrete input: two variables, threshold two, the
all-true assignment. -/
theorem c2_at_least_k_sound_witness :
    1 ≤ 2 ∧ 2 ≤ ([1, 2] : List Nat).length ∧
    satFormula (fun _ => true) (atLeastK ⟨3, []⟩ [1, 2] 2).formula = true ∧
    2 ≤ countTrue (fun _ => true) [1, 2] :=
  ⟨by decide, by decide, by decide,
   c2_at_least_k_sound 3 [1, 2] 2 (fun _ => true) (by decide) (by decide)
     (by decide)⟩

/-! ### The crossword encoder (encoder.rs 5-307, 447-592)

The encoder state `CW` mirrors Rust `CrosswordEncoder`; `encode` is split
into one Lean definition per phase, composed in the same order as the Rust
function body. -/

/-- In-place update of a list element; out-of-range indices leave the list
unchanged (the Rust code only indexes in range on these paths). -/
def modifyAt {α : Type} (l : List α) (i : Nat) (f : α → α) : List α :=
  match l[i]? with
  | some a => l.set i (f a)
  | none => l

/-- Rust `CrosswordEncoder`: clause buffer and variable counter (`enc`),
the placement- and grid-variable tables (association lists in insertion
order), and the per-cell/per-direction placement lists. -/
structure CW where
  enc : Enc
  placementVars : List ((String × Nat × Nat × Bool) × Nat)
  gridVars : List ((Nat × Nat × Char) × Nat)
  possiblePlacements : List (List (List (List Nat)))
deriving Repr

/-- Rust `CrosswordEncoder::new(size)` (encoder.rs 14-22). -/
def cwNew (size : Nat) : CW :=
  ⟨⟨1, []⟩, [], [], List.replicate size (List.replicate size [[], []])⟩

/-- Rust `CrosswordEncoder::at_most_one` (encoder.rs 309-315): pairwise
negative clauses in the same double-loop order. -/
def atMostOne (st : Enc) (vars : List Nat) : Enc :=
  match vars with
  | [] => st
  | v :: rest =>
    atMostOne (rest.foldl (fun st w => encAddClause st [litNeg v, litNeg w]) st)
      rest

/-- The candidate alphabet (encoder.rs 35-39): the distinct characters of
the words, in first-occurrence order (Rust collects them into a `HashSet`,
whose order is unspecified; no property proved here depends on it). -/
def encodeChars (words : List String) : List Char :=
  ((words.map (fun w => w.data)).flatten).dedup

/-- encoder.rs 42-49: mint a grid variable for every cell and character. -/
def createGridVars (cw : CW) (size : Nat) (chars : List Char) : CW :=
  (List.range size).foldl (fun cw y =>
    (List.range size).foldl (fun cw x =>
      chars.foldl (fun cw ch =>
        let p := encNewVar cw.enc
        { cw with enc := p.1, gridVars := cw.gridVars ++ [((x, y, ch), p.2)] })
        cw) cw) cw

/-- The grid variables of one cell, in alphabet order (encoder.rs 54-56). -/
def cellCharVars (gridVars : List ((Nat × Nat × Char) × Nat))
    (chars : List Char) (x y : Nat) : List Nat :=
  chars.filterMap (fun ch => gridVars.lookup (x, y, ch))

/-- encoder.rs 52-59: at most one character per cell. -/
def amoCells (cw : CW) (size : Nat) (chars : List Char) : CW :=
  (List.range size).foldl (fun cw y =>
    (List.range size).foldl (fun cw x =>
      { cw with enc := atMostOne cw.enc (cellCharVars cw.gridVars chars x y) })
      cw) cw

/-- encoder.rs 68-97: the horizontal block for one origin (run when the
word fits): mint the placement variable, record it, emit the
letter-implication clauses and the boundary-empty clauses. -/
def addHorizPlacement (cw : CW) (word : String) (x y size : Nat)
    (chars : List Char) (allP : List Nat) : CW × List Nat :=
  let p := encNewVar cw.enc
  let pvar := p.2
  let cw :=
    { cw with
        enc := p.1,
        placementVars := cw.placementVars ++ [((word, x, y, true), pvar)],
        possiblePlacements := modifyAt cw.possiblePlacements y (fun row =>
          modifyAt row x (fun cell => modifyAt cell 0 (fun l => l ++ [pvar]))) }
  let allP := allP ++ [pvar]
  let encA := (word.data.enum).foldl (fun st iw =>
    match cw.gridVars.lookup (x + iw.1, y, iw.2) with
    | some gvar => encAddClause st [litNeg pvar, litPos gvar]
    | none => st) cw.enc
  let encB := if 0 < x then
      chars.foldl (fun st ch =>
        match cw.gridVars.lookup (x - 1, y, ch) with
        | some gvar => encAddClause st [litNeg pvar, litNeg gvar]
        | none => st) encA
    else encA
  let encC := if x + word.length < size then
      chars.foldl (fun st ch =>
        match cw.gridVars.lookup (x + word.length, y, ch) with
        | some gvar => encAddClause st [litNeg pvar, litNeg gvar]
        | none => st) encB
    else encB
  ({ cw with enc := encC }, allP)

/-- encoder.rs 99-128: the vertical block for one origin. -/
def addVertPlacement (cw : CW) (word : String) (x y size : Nat)
    (chars : List Char) (allP : List Nat) : CW × List Nat :=
  let p := encNewVar cw.enc
  let pvar := p.2
  let cw :=
    { cw with
        enc := p.1,
        placementVars := cw.placementVars ++ [((word, x, y, false), pvar)],
        possiblePlacements := modifyAt cw.possiblePlacements y (fun row =>
          modifyAt row x (fun cell => modifyAt cell 1 (fun l => l ++ [pvar]))) }
  let allP := allP ++ [pvar]
  let encA := (word.data.enum).foldl (fun st iw =>
    match cw.gridVars.lookup (x, y + iw.1, iw.2) with
    | some gvar => encAddClause st [litNeg pvar, litPos gvar]
    | none => st) cw.enc
  let encB := if 0 < y then
      chars.foldl (fun st ch =>
        match cw.gridVars.lookup (x, y - 1, ch) with
        | some gvar => encAddClause st [litNeg pvar, litNeg gvar]
        | none => st) encA
    else encA
  let encC := if y + word.length < size then
      chars.foldl (fun st ch =>
        match cw.gridVars.lookup (x, y + word.length, ch) with
        | some gvar => encAddClause st [litNeg pvar, litNeg gvar]
        | none => st) encB
    else encB
  ({ cw with enc := encC }, allP)

/-- encoder.rs 62-134: all placements of one word over all origins and both
directions, followed by the per-word at-most-one constraint. -/
def addWordPlacements (cw : CW) (word : String) (size : Nat)
    (chars : List Char) : CW :=
  let r := (List.range size).foldl (fun acc y =>
    (List.range size).foldl (fun (acc : CW × List Nat) x =>
      let acc := if x + word.length ≤ size then
          addHorizPlacement acc.1 word x y size chars acc.2
        else acc
      if y + word.length ≤ size then
        addVertPlacement acc.1 word x y size chars acc.2
      else acc) acc) (cw, ([] : List Nat))
  { r.1 with enc := atMostOne r.1.enc r.2 }

/-- encoder.rs 62-134, outer loop over the words. -/
def addAllPlacements (cw : CW) (words : List String) (size : Nat)
    (chars : List Char) : CW :=
  words.foldl (fun cw w => addWordPlacements cw w size chars) cw

/-- The horizontal placement variables (encoder.rs 139-142). -/
def horizPlacementVars (pv : List ((String × Nat × Nat × Bool) × Nat)) :
    List Nat :=
  (pv.filter (fun e => e.1.2.2.2)).map (fun e => e.2)

/-- The vertical placement variables (encoder.rs 144-147). -/
def vertPlacementVars (pv : List ((String × Nat × Nat × Bool) × Nat)) :
    List Nat :=
  (pv.filter (fun e => !e.1.2.2.2)).map (fun e => e.2)

/-- encoder.rs 139-167: at least one placement of each orientation, and at
least three of each when enough candidates exist. -/
def addOrientationConstraints (cw : CW) : CW :=
  let horiz := horizPlacementVars cw.placementVars
  let vert := vertPlacementVars cw.placementVars
  let enc := cw.enc
  let enc := if horiz.isEmpty then enc else encAddClause enc (horiz.map litPos)
  let enc := if vert.isEmpty then enc else encAddClause enc (vert.map litPos)
  let enc := if 3 ≤ horiz.length then atLeastK enc horiz 3 else enc
  let enc := if 3 ≤ vert.length then atLeastK enc vert 3 else enc
  { cw with enc := enc }

/-- Does a placement of `word` at `(px, py)` in direction `horiz` cover
cell `(x, y)` with character `ch`? (encoder.rs 182-195; Rust breaks after
the first matching index, so membership equals existence.) -/
def placementCovers (word : String) (px py : Nat) (horiz : Bool)
    (x y : Nat) (ch : Char) : Bool :=
  (word.data.enum).any (fun iw =>
    iw.2 == ch &&
      (if horiz then px + iw.1 == x && py == y
       else px == x && py + iw.1 == y))

/-- encoder.rs 170-211: every true grid letter must be set by a covering
placement (`g -> disjunction of covering placements`), and grid letters no
placement can produce are forced false. -/
def addBidirectional (cw : CW) (size : Nat) (chars : List Char) : CW :=
  (List.range size).foldl (fun cw y =>
    (List.range size).foldl (fun cw x =>
      chars.foldl (fun cw ch =>
        match cw.gridVars.lookup (x, y, ch) with
        | some gvar =>
          let covering := cw.placementVars.filterMap (fun e =>
            if placementCovers e.1.1 e.1.2.1 e.1.2.2.1 e.1.2.2.2 x y ch
            then some e.2 else none)
          if covering.isEmpty then
            { cw with enc := encAddClause cw.enc [litNeg gvar] }
          else
            let clause := litNeg gvar :: covering.map litPos
            { cw with enc := encAddClause cw.enc clause }
        | none => cw) cw) cw) cw

/-- Rust `add_sequence_constraint` (encoder.rs 268-307). -/
def addSequenceConstraint (cw : CW) (x y : Nat) (horizontal : Bool)
    (chars : List Char) (placements : List Nat) : CW :=
  let currChars := chars.filterMap (fun ch => cw.gridVars.lookup (x, y, ch))
  let nxt := if horizontal then (x + 1, y) else (x, y + 1)
  let nextChars := chars.filterMap (fun ch =>
    cw.gridVars.lookup (nxt.1, nxt.2, ch))
  currChars.foldl (fun cw cc =>
    nextChars.foldl (fun cw nc =>
      let clause := [litNeg cc, litNeg nc] ++ placements.map litPos
      let clause :=
        if (horizontal = true ∧ 0 < x) ∨ (horizontal = false ∧ 0 < y) then
          let prv := if horizontal then (x - 1, y) else (x, y - 1)
          let prevChars := chars.filterMap (fun ch =>
            cw.gridVars.lookup (prv.1, prv.2, ch))
          clause ++ prevChars.map litPos
        else clause
      { cw with enc := encAddClause cw.enc clause }) cw) cw

/-- encoder.rs 216-227: sequence validation at every position. -/
def addSequenceAll (cw : CW) (size : Nat) (chars : List Char) : CW :=
  (List.range size).foldl (fun cw y =>
    (List.range size).foldl (fun cw x =>
      let cw := if x + 1 < size then
          addSequenceConstraint cw x y true chars
            (((cw.possiblePlacements.getD y []).getD x []).getD 0 [])
        else cw
      if y + 1 < size then
        addSequenceConstraint cw x y false chars
          (((cw.possiblePlacements.getD y []).getD x []).getD 1 [])
      else cw) cw) cw

/-- The auxiliary variable tables of the connectivity constraint.  Rust
returns only `is_filled`; the embedding also exposes the anchor-row,
anchor-cell and reachability tables so theorems can name them. -/
structure ConnTables where
  ccStartRow : List Nat
  ccStart : List (List Nat)
  inCC : List (List (List Nat))
  isFilled : List (List Nat)
deriving Repr

/-- encoder.rs 542-586: the clauses emitted for one cell `(x, y)` of the
anchor-selection / reachability loop. -/
def connCellClauses (size : Nat) (ccStartRow : List Nat)
    (ccStart : List (List Nat)) (inCC : List (List (List Nat)))
    (isFilled : List (List Nat)) (maxDist y : Nat) (enc : Enc) (x : Nat) :
    Enc :=
  let icc := fun (yy xx i : Nat) => ((inCC.getD yy []).getD xx []).getD i 0
  let cs := (ccStart.getD y []).getD x 0
  let noPrevX := (List.range x).map (fun px =>
    litNeg ((ccStart.getD y []).getD px 0))
  let enc := encAddClause enc [litNeg cs, litPos (ccStartRow.getD y 0)]
  let enc := encAddClause enc
    [litNeg cs, litPos ((isFilled.getD y []).getD x 0)]
  let enc := noPrevX.foldl (fun e npx => encAddClause e [litNeg cs, npx]) enc
  let enc := encAddClause enc [litNeg cs, litPos (icc y x 0)]
  let enc := encAddClause enc [litPos cs, litNeg (icc y x 0)]
  let enc := (List.range (min maxDist 20)).foldl (fun e i0 =>
    let i := i0 + 1
    let e := encAddClause e [litNeg (icc y x i),
      litPos ((isFilled.getD y []).getD x 0)]
    let reasons := [litPos (icc y x (i - 1))] ++
      (if 0 < x then [litPos (icc y (x - 1) (i - 1))] else []) ++
      (if x + 1 < size then [litPos (icc y (x + 1) (i - 1))] else []) ++
      (if 0 < y then [litPos (icc (y - 1) x (i - 1))] else []) ++
      (if y + 1 < size then [litPos (icc (y + 1) x (i - 1))] else [])
    encAddClause e (litNeg (icc y x i) :: reasons)) enc
  let finalDist := min maxDist 20
  encAddClause enc [litNeg ((isFilled.getD y []).getD x 0),
    litPos (icc y x finalDist)]

/-- encoder.rs 518-587: the clauses emitted for one row `y` of the
anchor-selection loop (the `cc_start_row` clauses, then the cell loop). -/
def connRowClauses (size : Nat) (ccStartRow : List Nat)
    (ccStart : List (List Nat)) (inCC : List (List (List Nat)))
    (isFilled : List (List Nat)) (maxDist : Nat) (enc : Enc) (y : Nat) :
    Enc :=
  let noPrev := (List.range y).map (fun py => litNeg (ccStartRow.getD py 0))
  let anyInRow := (List.range size).map (fun x =>
    litPos ((isFilled.getD y []).getD x 0))
  let enc := noPrev.foldl (fun e npr =>
    encAddClause e [litNeg (ccStartRow.getD y 0), npr]) enc
  let enc := if anyInRow.isEmpty then enc
    else encAddClause enc (litNeg (ccStartRow.getD y 0) :: anyInRow)
  (List.range size).foldl
    (connCellClauses size ccStartRow ccStart inCC isFilled maxDist y) enc

/-- encoder.rs 454-515: the allocation part of the connectivity
constraint — `max_dist` plus the `cc_start_row`, `cc_start`, `in_cc` and
`is_filled` variable tables in that order, with the filled-cell
equivalence clauses emitted while `is_filled` is built. -/
def connAlloc (cw : CW) (size : Nat) (chars : List Char) : Enc × ConnTables :=
  let maxDist := (size + 1) * (size + 1) / 2 - 1
  let r1 := (List.range size).foldl (fun (acc : Enc × List Nat) _ =>
    let p := encNewVar acc.1
    (p.1, acc.2 ++ [p.2])) (cw.enc, [])
  let ccStartRow := r1.2
  let r2 := (List.range size).foldl (fun (acc : Enc × List (List Nat)) _ =>
    let row := (List.range size).foldl (fun (acc2 : Enc × List Nat) _ =>
      let p := encNewVar acc2.1
      (p.1, acc2.2 ++ [p.2])) (acc.1, [])
    (row.1, acc.2 ++ [row.2])) (r1.1, [])
  let ccStart := r2.2
  let r3 := (List.range size).foldl
    (fun (acc : Enc × List (List (List Nat))) _ =>
      let row := (List.range size).foldl
        (fun (acc2 : Enc × List (List Nat)) _ =>
          let steps := (List.range (maxDist + 1)).foldl
            (fun (acc3 : Enc × List Nat) _ =>
              let p := encNewVar acc3.1
              (p.1, acc3.2 ++ [p.2])) (acc2.1, [])
          (steps.1, acc2.2 ++ [steps.2])) (acc.1, [])
      (row.1, acc.2 ++ [row.2])) (r2.1, [])
  let r4 := (List.range size).foldl
    (fun (acc : Enc × List (List Nat)) y =>
      let row := (List.range size).foldl
        (fun (acc2 : Enc × List Nat) x =>
          let p := encNewVar acc2.1
          let filledVar := p.2
          let cellChars := chars.filterMap (fun ch =>
            cw.gridVars.lookup (x, y, ch))
          let enc2 :=
            if cellChars.isEmpty then
              encAddClause p.1 [litNeg filledVar]
            else
              let e := encAddClause p.1
                (litNeg filledVar :: cellChars.map litPos)
              cellChars.foldl (fun e cv =>
                encAddClause e [litNeg cv, litPos filledVar]) e
          (enc2, acc2.2 ++ [filledVar])) (acc.1, [])
      (row.1, acc.2 ++ [row.2])) (r3.1, [])
  (r4.1, ⟨ccStartRow, ccStart, r3.2, r4.2⟩)

/-- Rust `add_connectivity_constraint` (encoder.rs 447-592): the allocation
part followed by the anchor selection, bounded reachability and coverage
clauses. -/
def addConnectivityConstraint (cw : CW) (size : Nat) (chars : List Char) :
    CW × ConnTables :=
  let maxDist := (size + 1) * (size + 1) / 2 - 1
  let a := connAlloc cw size chars
  let enc := (List.range size).foldl
    (connRowClauses size a.2.ccStartRow a.2.ccStart a.2.inCC a.2.isFilled
      maxDist) a.1
  ({ cw with enc := enc }, a.2)

/-- encoder.rs 236-247: the density constraint — at least
`max(size*size*5/10, 15)` of the filled-cell variables must be true
(via the sequential counter, which emits nothing when the threshold
exceeds the variable count). -/
def addDensityConstraint (enc : Enc) (isFilled : List (List Nat))
    (size : Nat) : Enc :=
  let minFilledCells := max (size * size * 5 / 10) 15
  let filledVars := isFilled.flatten
  if filledVars.isEmpty then enc
  else atLeastK enc filledVars minFilledCells

/-- encoder.rs 254: the placement-count threshold of the quality
constraint, `(min_quality / 10).max(6)`. -/
def minWordsThreshold (minQuality : Nat) : Nat := max (minQuality / 10) 6

/-- encoder.rs 249-258: the quality constraint — when `min_quality > 0`
and placement variables exist, at least `minWordsThreshold min_quality`
of them must be true. -/
def addQualityConstraint (enc : Enc)
    (placementVars : List ((String × Nat × Nat × Bool) × Nat))
    (minQuality : Nat) : Enc :=
  if 0 < minQuality then
    let allPlacements := placementVars.map (fun e => e.2)
    if allPlacements.isEmpty then enc
    else atLeastK enc allPlacements (minWordsThreshold minQuality)
  else enc

/-- solver.rs 18: the quality target the solver driver passes to `encode`:
`(size * size * 4 / 10).max(20)`. -/
def targetQuality (size : Nat) : Nat := max (size * size * 4 / 10) 20

/-- Rust `CrosswordEncoder::encode` (encoder.rs 30-266), phases composed in
source order.  Returns the final encoder state together with the
`is_filled` table produced by the connectivity constraint (Rust keeps that
table in a local; it is returned here so theorems can name the filled-cell
variables). -/
def encode (words : List String) (size : Nat) (minQuality : Nat) :
    CW × List (List Nat) :=
  let cw := cwNew size
  let chars := encodeChars words
  let cw := createGridVars cw size chars
  let cw := amoCells cw size chars
  let cw := addAllPlacements cw words size chars
  let cw := addOrientationConstraints cw
  let cw := addBidirectional cw size chars
  let cw := addSequenceAll cw size chars
  let r := addConnectivityConstraint cw size chars
  let cw := r.1
  let isFilled := r.2.isFilled
  let cw := { cw with enc := addDensityConstraint cw.enc isFilled size }
  let cw := { cw with enc :=
    addQualityConstraint cw.enc cw.placementVars minQuality }
  (cw, isFilled)

/-! ### Model extraction (encoder.rs 396-445) and the solver driver's
success path (solver.rs 39-57) -/

/-- solution.rs 3-9 `Placement`. -/
structure Placement where
  word : String
  x : Nat
  y : Nat
  horizontal : Bool
deriving Repr, DecidableEq

/-- A model as varisat returns it: one literal per variable. -/
abbrev Model := List Lit

/-- Rust `extract_placements` (encoder.rs 396-445): collect the placements
whose variable is true in the model and return them.  The subsequent
grid-coverage validation walk (lines 416-441) computes a `covered` flag per
true grid letter but only emits a debug log; it does not alter the result
or signal an error. -/
def extractPlacements (cw : CW) (model : Model) : List Placement :=
  cw.placementVars.filterMap (fun e =>
    if (e.2, true) ∈ model then
      some ⟨e.1.1, e.1.2.1, e.1.2.2.1, e.1.2.2.2⟩
    else none)

/-- The validation predicate of encoder.rs 418-441, reified: the grid
letters that are true in the model yet covered by no extracted placement
(for each of these Rust logs "WARNING: .. not covered" and nothing else). -/
def uncoveredGridLetters (cw : CW) (model : Model)
    (placements : List Placement) : List (Nat × Nat × Char) :=
  cw.gridVars.filterMap (fun e =>
    if (e.2, true) ∈ model then
      if placements.any (fun p =>
          placementCovers p.word p.x p.y p.horizontal e.1.1 e.1.2.1 e.1.2.2)
      then none
      else some e.1
    else none)

/-- The error text of solver.rs 46. -/
def noPlacementsMsg : String := "No placements found"

/-- solver.rs 39-57, the path taken once the SAT solver returns a model:
`extract_placements` is called and its result is returned as `Ok` unless
the list is empty. -/
def solverOutcome (cw : CW) (model : Model) : Except String (List Placement) :=
  let placements := extractPlacements cw model
  if placements.isEmpty then Except.error noPlacementsMsg
  else Except.ok placements

/-! ### The puzzle assembler (solution.rs 11-127)

Every grid access that could panic in Rust is checked: `none` models a
panic.  The Rust `f32` field `density` (`filled / total`) is floating
point and outside the embedding; its integer numerator — the number of
distinct filled cells — is carried instead. -/

/-- solution.rs 11-18 `Clue`. -/
structure Clue where
  number : Nat
  word : String
  clue : String
  x : Nat
  y : Nat
deriving Repr, DecidableEq

/-- solution.rs 20-26 `CrosswordMetadata` (see the section comment about
`density`). -/
structure CrosswordMetadata where
  filledCellCount : Nat
  wordCount : Nat
  totalLetters : Nat
  generationTimeMs : Nat
deriving Repr, DecidableEq

/-- solution.rs 28-34 `CrosswordPuzzle`. -/
structure CrosswordPuzzle where
  grid : List (List (Option Char))
  acrossClues : List Clue
  downClues : List Clue
  metadata : CrosswordMetadata
deriving Repr, DecidableEq

/-- Checked read `grid[y][x]`. -/
def readCell {α : Type} (g : List (List α)) (y x : Nat) : Option α :=
  match g[y]? with
  | some row => row[x]?
  | none => none

/-- Checked write `grid[y][x] = a`. -/
def writeCell {α : Type} (g : List (List α)) (y x : Nat) (a : α) :
    Option (List (List α)) :=
  match g[y]? with
  | some row => if x < row.length then some (g.set y (row.set x a)) else none
  | none => none

/-- solution.rs 45-55: write one placement's letters into the grid. -/
def writePlacement (g : List (List (Option Char))) (p : Placement) :
    Option (List (List (Option Char))) :=
  (p.word.data.enum).foldlM (fun g iw =>
    let c := if p.horizontal then (p.x + iw.1, p.y) else (p.x, p.y + iw.1)
    writeCell g c.2 c.1 (some iw.2)) g

/-- solution.rs 43-55: the letter grid built from the placements. -/
def buildGrid (placements : List Placement) (size : Nat) :
    Option (List (List (Option Char))) :=
  placements.foldlM (fun g p => writePlacement g p)
    (List.replicate size (List.replicate size (none : Option Char)))

/-- solution.rs 63-64 `starts_across`, with Rust's short-circuit reads:
`(x == 0 || grid[y][x-1].is_none()) && x + 1 < size &&
grid[y][x+1].is_some()`. -/
def startsAcross (grid : List (List (Option Char))) (size x y : Nat) :
    Option Bool := do
  let a ← if x = 0 then pure true else do
    let c ← readCell grid y (x - 1)
    pure c.isNone
  if a ∧ x + 1 < size then do
    let c ← readCell grid y (x + 1)
    pure c.isSome
  else pure false

/-- solution.rs 65-66 `starts_down`, vertically symmetric. -/
def startsDown (grid : List (List (Option Char))) (size x y : Nat) :
    Option Bool := do
  let a ← if y = 0 then pure true else do
    let c ← readCell grid (y - 1) x
    pure c.isNone
  if a ∧ y + 1 < size then do
    let c ← readCell grid (y + 1) x
    pure c.isSome
  else pure false

/-- The body of the numbering loop at one position (solution.rs 62-72). -/
def numberCellsStep (grid : List (List (Option Char))) (size : Nat)
    (acc : List (List Nat) × Nat) (pos : Nat × Nat) :
    Option (List (List Nat) × Nat) := do
  let cell ← readCell grid pos.1 pos.2
  if cell.isSome then
    let sa ← startsAcross grid size pos.2 pos.1
    let sd ← startsDown grid size pos.2 pos.1
    if sa || sd then do
      let nums ← writeCell acc.1 pos.1 pos.2 acc.2
      pure (nums, acc.2 + 1)
    else pure acc
  else pure acc

/-- Reading order: row-major `(y, x)` positions. -/
def readingOrder (size : Nat) : List (Nat × Nat) :=
  ((List.range size).map (fun y =>
    (List.range size).map (fun x => (y, x)))).flatten

/-- solution.rs 57-74: number the entry-starting cells in reading order,
starting from 1; other cells keep 0. -/
def numberCells (grid : List (List (Option Char))) (size : Nat) :
    Option (List (List Nat)) := do
  let r ← (readingOrder size).foldlM (numberCellsStep grid size)
    (List.replicate size (List.replicate size 0), 1)
  pure r.1

/-- solution.rs 76-94: build the across/down clue lists (before sorting). -/
def buildClues (placements : List Placement)
    (cellNumbers : List (List Nat)) (clueFn : String → String) :
    Option (List Clue × List Clue) :=
  placements.foldlM (fun acc p => do
    let number ← readCell cellNumbers p.y p.x
    let c : Clue := ⟨number, p.word, clueFn p.word, p.x, p.y⟩
    if p.horizontal then pure (acc.1 ++ [c], acc.2)
    else pure (acc.1, acc.2 ++ [c])) ([], [])

/-- Stable insertion into a list sorted by clue number. -/
def insertByNumber (c : Clue) : List Clue → List Clue
  | [] => [c]
  | d :: rest =>
    if d.number ≤ c.number then d :: insertByNumber c rest
    else c :: d :: rest

/-- solution.rs 96-97 `sort_by_key(|c| c.number)` (a stable sort; stable
insertion sort here). -/
def sortByNumber (l : List Clue) : List Clue :=
  l.foldl (fun acc c => insertByNumber c acc) []

/-- solution.rs 99-110: the distinct cells covered by the placements (the
Rust `HashSet` becomes a deduplicated list). -/
def filledCellsOf (placements : List Placement) : List (Nat × Nat) :=
  ((placements.map (fun p =>
    (List.range p.word.length).map (fun i =>
      if p.horizontal then (p.x + i, p.y) else (p.x, p.y + i)))).flatten).dedup

/-- Rust `CrosswordPuzzle::from_placements` (solution.rs 37-127). -/
def fromPlacements (placements : List Placement) (size : Nat)
    (clueFn : String → String) (generationTimeMs : Nat) :
    Option CrosswordPuzzle := do
  let grid ← buildGrid placements size
  let nums ← numberCells grid size
  let clues ← buildClues placements nums clueFn
  let totalLetters := (placements.map (fun p => p.word.length)).sum
  pure ⟨grid, sortByNumber clues.1, sortByNumber clues.2,
    ⟨(filledCellsOf placements).length, placements.length, totalLetters,
     generationTimeMs⟩⟩

/-! ### The lexicon filter (dictionary.rs 17-99)

The raw dictionary text file is data external to the repository; the
entries map is built here from the parsed `(headword, definition)` pairs
(dictionary.rs 27-56).  The clue-extraction heuristic `extract_clue`
(dictionary.rs 101-316) is a deterministic pure function of the definition
text; the lexicon theorems quantify over it, so it is a parameter. -/

def star : String := "*"

def parenSpace : String := ") "

def closeParen : String := ")"

def dotStr : String := "."

def refVarOf : String := "var. of"

def refVariantOf : String := "variant of"

def refSee : String := "see "

def refEq : String := "= "

def refOfStar : String := "of *"

def refOf : String := "of "

def labelPre : String := "prefix"

def labelSuf : String := "suffix"

def labelAbbr : String := "abbr."

def labelAbbrSp : String := "abbr. "

def defNotAvailable : String := "Definition not available"

/-- Character-level lowercase (Rust `str::to_lowercase`; the dictionary
data is ASCII, where this agrees with Lean's byte-position-based
`String.toLower`, whose well-founded recursion does not evaluate inside
the kernel). -/
def strToLower (s : String) : String := String.mk (s.data.map Char.toLower)

/-- Character-level uppercase (Rust `str::to_uppercase`). -/
def strToUpper (s : String) : String := String.mk (s.data.map Char.toUpper)

/-- Rust `str::starts_with` for a literal pattern. -/
def strStartsWith (s pre : String) : Bool := pre.data.isPrefixOf s.data

/-- Rust `str::ends_with` for a literal pattern. -/
def strEndsWith (s suf : String) : Bool := suf.data.isSuffixOf s.data

/-- Substring test on character lists. -/
def containsSeq (needle hay : List Char) : Bool :=
  hay.tails.any (fun t => needle.isPrefixOf t)

/-- Rust `str::contains` with a literal pattern. -/
def strContains (hay pat : String) : Bool := containsSeq pat.data hay.data

/-- dictionary.rs 40-46: definitions that are cross-references. -/
def isReference (defLower : String) : Bool :=
  strStartsWith defLower refVarOf || strStartsWith defLower refVariantOf ||
  strStartsWith defLower refSee || strStartsWith defLower refEq ||
  strStartsWith defLower refOfStar ||
  (strStartsWith defLower refOf && strContains defLower star)

/-- dictionary.rs 36-37: remove hyphens, strip trailing ASCII digits. -/
def cleanWord (word : String) : String :=
  let noHyphen := word.data.filter (fun c => c != '-')
  String.mk ((noHyphen.reverse.dropWhile (fun c => c.isDigit)).reverse)

/-- Insert-or-replace into an association list (Rust `HashMap::insert`). -/
def insertAssoc (m : List (String × String)) (k v : String) :
    List (String × String) :=
  if m.any (fun e => e.1 == k) then
    m.map (fun e => if e.1 == k then (k, v) else e)
  else m ++ [(k, v)]

/-- dictionary.rs 27-56, the body of the entries loop for one parsed
`(headword, definition)` pair. -/
def dictEntriesStep (entries : List (String × String))
    (wd : String × String) : List (String × String) :=
  if wd.1.length != 0 && wd.1.data.all (fun c => c.isAlpha || c == '-') then
    let wordClean := cleanWord wd.1
    if wordClean.length != 0 then
      if isReference (strToLower wd.2) then entries
      else insertAssoc entries (strToUpper wordClean) wd.2
    else entries
  else entries

/-- dictionary.rs 27-56: the entries map, keyed by the cleaned uppercased
headword, cross-references dropped. -/
def dictEntries (raw : List (String × String)) : List (String × String) :=
  raw.foldl dictEntriesStep []

/-- dictionary.rs 58-83: the admissibility filter for one entry. -/
def dictFilterWord (extractClue : String → String) (w defn : String) : Bool :=
  let len := w.length
  let validWord := (3 ≤ len && len ≤ 15) && w.data.all (fun c => c.isAlpha)
  let defLower := strToLower defn
  let notSpecial := !strStartsWith defLower labelPre &&
    !strStartsWith defLower labelSuf && !strStartsWith defLower labelAbbr &&
    !strContains defLower labelAbbrSp && !strEndsWith w dotStr
  let clue := extractClue defn
  let cleanClue := (clue != defNotAvailable &&
    !strContains (strToLower clue) (strToLower w)) &&
    (10 < clue.length && !strStartsWith (strToLower clue) refOf) &&
    (!strContains clue parenSpace && !strEndsWith clue closeParen &&
     !strContains clue star)
  validWord && notSpecial && cleanClue

/-- dictionary.rs 58-86: the word list. -/
def dictWords (extractClue : String → String)
    (raw : List (String × String)) : List String :=
  ((dictEntries raw).filter (fun e =>
    dictFilterWord extractClue e.1 e.2)).map (fun e => e.1)

/-- Rust `Dictionary::get_clue` (dictionary.rs 92-99). -/
def getClue (extractClue : String → String) (raw : List (String × String))
    (word : String) : String :=
  match (dictEntries raw).lookup (strToUpper word) with
  | some d => extractClue d
  | none => defNotAvailable

/-! ### Generic fold lemmas: formulas only grow, emitted clauses persist -/

theorem foldl_ext_proj {σ β : Type} (pr : σ → Formula) (f : σ → β → σ)
    (l : List β) (init : σ)
    (hext : ∀ s b, b ∈ l → FormulaExt (pr s) (pr (f s b))) :
    FormulaExt (pr init) (pr (l.foldl f init)) := by
  induction l generalizing init with
  | nil => exact formulaExt_refl _
  | cons b rest ih =>
    rw [List.foldl_cons]
    exact formulaExt_trans (hext init b (by simp))
      (ih (f init b) (fun s b2 hb2 => hext s b2 (by simp [hb2])))

theorem foldl_mem_proj {σ β : Type} (pr : σ → Formula) (f : σ → β → σ)
    (l : List β) (init : σ)
    (hext : ∀ s b, b ∈ l → FormulaExt (pr s) (pr (f s b)))
    {b : β} (hb : b ∈ l) {c : Clause} (hc : ∀ s, c ∈ pr (f s b)) :
    c ∈ pr (l.foldl f init) := by
  induction l generalizing init with
  | nil => cases hb
  | cons b2 rest ih =>
    rw [List.foldl_cons]
    rcases List.mem_cons.mp hb with rfl | hbrest
    · exact mem_of_formulaExt
        (foldl_ext_proj pr f rest (f init b)
          (fun s b3 hb3 => hext s b3 (by simp [hb3])))
        (hc init)
    · exact ih (f init b2) (fun s b3 hb3 => hext s b3 (by simp [hb3])) hbrest

/-! ### Claim C1 — extraction does not reject uncovered grid letters -/

/-- A concrete encoder state for C1: one placement variable for the word
"AB" at the origin, grid variables for four cells with letter A and one
with letter C. -/
def c1CW : CW :=
  ⟨⟨41, []⟩, [(("AB", 0, 0, true), 5)],
   [((0, 0, 'A'), 1), ((1, 0, 'A'), 2), ((0, 1, 'A'), 3), ((1, 1, 'A'), 4),
    ((0, 1, 'C'), 40)], []⟩

/-- A concrete model for C1: the placement is selected, and grid letter
variable 40 — cell (0,1) holding 'C' — is true although no selected
placement covers cell (0,1) with 'C'. -/
def c1Model : Model := [(5, true), (1, true), (2, true), (40, true)]

/-- Claim C1 counterexample: the model makes grid-letter variable
g(0,1,'C') true and no selected placement covers it (it is listed by the
validation predicate), yet `extract_placements` still returns the placement
list and the solver driver path returns it as a successful result instead
of failing. -/
theorem c1_counterexample :
    ((0, 1, 'C'), 40) ∈ c1CW.gridVars ∧ ((40 : Nat), true) ∈ c1Model ∧
    (0, 1, 'C') ∈
      uncoveredGridLetters c1CW c1Model (extractPlacements c1CW c1Model) ∧
    extractPlacements c1CW c1Model = [⟨"AB", 0, 0, true⟩] ∧
    solverOutcome c1CW c1Model = Except.ok [⟨"AB", 0, 0, true⟩] :=
  ⟨by decide, by decide, by decide, by decide, rfl⟩

/-- Claim C1 (amended): when the model leaves a true grid letter uncovered
by every selected placement, extraction does not reject the puzzle — it
returns the placement list unchanged (Rust only logs a warning), and the
solver driver reports success whenever the list is non-empty. -/
theorem c1_extraction_never_rejects (cw : CW) (model : Model)
    (huncov : uncoveredGridLetters cw model (extractPlacements cw model) ≠ [])
    (hne : extractPlacements cw model ≠ []) :
    solverOutcome cw model = Except.ok (extractPlacements cw model) := by
  rw [solverOutcome]
  rw [if_neg (by simpa using hne)]

/-- Witness for the amended C1 at the concrete counterexample state. -/
theorem c1_extraction_never_rejects_witness :
    solverOutcome c1CW c1Model = Except.ok (extractPlacements c1CW c1Model) :=
  c1_extraction_never_rejects c1CW c1Model (by decide) (by decide)

/-! ### Claim C3 counterexample — the quality threshold is not
`target_quality / 10` -/

/-- Claim C3 counterexample: at grid size 5 the solver driver computes
`min_quality = max(20, 5*5*4/10) = 20`; the claim says the at-least-k
threshold is then `20 / 10 = 2`, but `encode` (encoder.rs 254) uses
`(min_quality / 10).max(6) = 6`. -/
theorem c3_counterexample :
    targetQuality 5 = 20 ∧ targetQuality 5 / 10 = 2 ∧
    minWordsThreshold (targetQuality 5) = 6 ∧
    minWordsThreshold (targetQuality 5) ≠ targetQuality 5 / 10 := by
  decide

/-! ### Claim C6 — what the anchor-selection clauses do (and do not)
enforce -/

theorem connCellClauses_ext (size : Nat) (csr : List Nat)
    (cs : List (List Nat)) (icc : List (List (List Nat)))
    (isf : List (List Nat)) (md y : Nat) (enc : Enc) (x : Nat) :
    FormulaExt enc.formula
      (connCellClauses size csr cs icc isf md y enc x).formula := by
  simp only [connCellClauses]
  refine formulaExt_trans (formulaExt_addClause _ _)
    (formulaExt_trans (formulaExt_addClause _ _)
      (formulaExt_trans (foldl_ext_proj Enc.formula _ _ _ ?_)
        (formulaExt_trans (formulaExt_addClause _ _)
          (formulaExt_trans (formulaExt_addClause _ _)
            (formulaExt_trans (foldl_ext_proj Enc.formula _ _ _ ?_)
              (formulaExt_addClause _ _))))))
  · intro s b _
    exact formulaExt_addClause _ _
  · intro s b _
    exact formulaExt_trans (formulaExt_addClause _ _) (formulaExt_addClause _ _)

theorem connRowClauses_ext (size : Nat) (csr : List Nat)
    (cs : List (List Nat)) (icc : List (List (List Nat)))
    (isf : List (List Nat)) (md : Nat) (enc : Enc) (y : Nat) :
    FormulaExt enc.formula
      (connRowClauses size csr cs icc isf md enc y).formula := by
  simp only [connRowClauses]
  set e1 := List.foldl (fun e npr => encAddClause e [litNeg (csr.getD y 0), npr])
    enc (List.map (fun py => litNeg (csr.getD py 0)) (List.range y)) with he1
  set e2 := if (List.map (fun x => litPos ((isf.getD y []).getD x 0))
      (List.range size)).isEmpty = true then e1
    else encAddClause e1 (litNeg (csr.getD y 0) ::
      List.map (fun x => litPos ((isf.getD y []).getD x 0)) (List.range size))
    with he2
  have h1 : FormulaExt enc.formula e1.formula := by
    rw [he1]
    exact foldl_ext_proj Enc.formula _ _ _ (fun s b _ => formulaExt_addClause _ _)
  have h2 : FormulaExt e1.formula e2.formula := by
    rw [he2]
    split
    · exact formulaExt_refl _
    · exact formulaExt_addClause _ _
  have h3 : FormulaExt e2.formula ((List.range size).foldl
      (connCellClauses size csr cs icc isf md y) e2).formula :=
    foldl_ext_proj Enc.formula _ _ _
      (fun s b _ => connCellClauses_ext size csr cs icc isf md y s b)
  exact formulaExt_trans h1 (formulaExt_trans h2 h3)

theorem connCellClauses_mem (size : Nat) (csr : List Nat)
    (cs : List (List Nat)) (icc : List (List (List Nat)))
    (isf : List (List Nat)) (md y : Nat) (enc : Enc) (x : Nat) :
    [litNeg ((cs.getD y []).getD x 0), litPos (csr.getD y 0)] ∈
      (connCellClauses size csr cs icc isf md y enc x).formula ∧
    [litNeg ((cs.getD y []).getD x 0), litPos ((isf.getD y []).getD x 0)] ∈
      (connCellClauses size csr cs icc isf md y enc x).formula ∧
    (∀ px, px < x → [litNeg ((cs.getD y []).getD x 0),
      litNeg ((cs.getD y []).getD px 0)] ∈
      (connCellClauses size csr cs icc isf md y enc x).formula) := by
  simp only [connCellClauses]
  set e1 := encAddClause enc
    [litNeg ((cs.getD y []).getD x 0), litPos (csr.getD y 0)] with he1
  set e2 := encAddClause e1
    [litNeg ((cs.getD y []).getD x 0), litPos ((isf.getD y []).getD x 0)]
    with he2
  set e3 := List.foldl (fun e npx =>
      encAddClause e [litNeg ((cs.getD y []).getD x 0), npx]) e2
    (List.map (fun px => litNeg ((cs.getD y []).getD px 0)) (List.range x))
    with he3
  have hext12 : FormulaExt e1.formula e2.formula := by
    rw [he2]
    exact formulaExt_addClause _ _
  have hext23 : FormulaExt e2.formula e3.formula := by
    rw [he3]
    exact foldl_ext_proj Enc.formula _ _ _
      (fun s b _ => formulaExt_addClause _ _)
  have hext3r : ∀ e : Enc, FormulaExt e.formula
      ((encAddClause (List.foldl (fun e2 i0 =>
        encAddClause (encAddClause e2 [litNeg (((icc.getD y []).getD x []).getD (i0 + 1) 0),
          litPos ((isf.getD y []).getD x 0)])
          (litNeg (((icc.getD y []).getD x []).getD (i0 + 1) 0) ::
            ([litPos (((icc.getD y []).getD x []).getD (i0 + 1 - 1) 0)] ++
             (if 0 < x then [litPos (((icc.getD y []).getD (x - 1) []).getD (i0 + 1 - 1) 0)] else []) ++
             (if x + 1 < size then [litPos (((icc.getD y []).getD (x + 1) []).getD (i0 + 1 - 1) 0)] else []) ++
             (if 0 < y then [litPos (((icc.getD (y - 1) []).getD x []).getD (i0 + 1 - 1) 0)] else []) ++
             (if y + 1 < size then [litPos (((icc.getD (y + 1) []).getD x []).getD (i0 + 1 - 1) 0)] else []))))
        (encAddClause (encAddClause e [litNeg ((cs.getD y []).getD x 0),
          litPos (((icc.getD y []).getD x []).getD 0 0)])
          [litPos ((cs.getD y []).getD x 0),
           litNeg (((icc.getD y []).getD x []).getD 0 0)])
        (List.range (min md 20)))
        [litNeg ((isf.getD y []).getD x 0),
         litPos (((icc.getD y []).getD x []).getD (min md 20) 0)]).formula) := by
    intro e
    refine formulaExt_trans (formulaExt_addClause _ _)
      (formulaExt_trans (formulaExt_addClause _ _)
        (formulaExt_trans (foldl_ext_proj Enc.formula _ _ _ ?_)
          (formulaExt_addClause _ _)))
    intro s b _
    exact formulaExt_trans (formulaExt_addClause _ _) (formulaExt_addClause _ _)
  refine ⟨?_, ?_, ?_⟩
  · refine mem_of_formulaExt (hext3r e3) ?_
    refine mem_of_formulaExt hext23 (mem_of_formulaExt hext12 ?_)
    rw [he1]
    simp [encAddClause]
  · refine mem_of_formulaExt (hext3r e3) ?_
    refine mem_of_formulaExt hext23 ?_
    rw [he2]
    simp [encAddClause]
  · intro px hpx
    refine mem_of_formulaExt (hext3r e3) ?_
    rw [he3]
    refine foldl_mem_proj Enc.formula _ _ _
      (fun s b _ => formulaExt_addClause _ _)
      (List.mem_map.mpr ⟨px, List.mem_range.mpr hpx, rfl⟩) ?_
    intro s
    simp [encAddClause]

theorem connRowClauses_mem_noPrev (size : Nat) (csr : List Nat)
    (cs : List (List Nat)) (icc : List (List (List Nat)))
    (isf : List (List Nat)) (md : Nat) (enc : Enc) (y py : Nat)
    (hpy : py < y) :
    [litNeg (csr.getD y 0), litNeg (csr.getD py 0)] ∈
      (connRowClauses size csr cs icc isf md enc y).formula := by
  simp only [connRowClauses]
  set e1 := List.foldl (fun e npr => encAddClause e [litNeg (csr.getD y 0), npr])
    enc (List.map (fun py => litNeg (csr.getD py 0)) (List.range y)) with he1
  set e2 := if (List.map (fun x => litPos ((isf.getD y []).getD x 0))
      (List.range size)).isEmpty = true then e1
    else encAddClause e1 (litNeg (csr.getD y 0) ::
      List.map (fun x => litPos ((isf.getD y []).getD x 0)) (List.range size))
    with he2
  have hm1 : [litNeg (csr.getD y 0), litNeg (csr.getD py 0)] ∈ e1.formula := by
    rw [he1]
    refine foldl_mem_proj Enc.formula _ _ _
      (fun s b _ => formulaExt_addClause _ _)
      (List.mem_map.mpr ⟨py, List.mem_range.mpr hpy, rfl⟩) ?_
    intro s
    simp [encAddClause]
  have hext12 : FormulaExt e1.formula e2.formula := by
    rw [he2]
    split
    · exact formulaExt_refl _
    · exact formulaExt_addClause _ _
  have hext2r : FormulaExt e2.formula ((List.range size).foldl
      (connCellClauses size csr cs icc isf md y) e2).formula :=
    foldl_ext_proj Enc.formula _ _ _
      (fun s b _ => connCellClauses_ext size csr cs icc isf md y s b)
  exact mem_of_formulaExt hext2r (mem_of_formulaExt hext12 hm1)

theorem connRowClauses_mem_anyRow (size : Nat) (csr : List Nat)
    (cs : List (List Nat)) (icc : List (List (List Nat)))
    (isf : List (List Nat)) (md : Nat) (enc : Enc) (y : Nat)
    (hsize : 0 < size) :
    (litNeg (csr.getD y 0) ::
      (List.range size).map (fun x => litPos ((isf.getD y []).getD x 0))) ∈
      (connRowClauses size csr cs icc isf md enc y).formula := by
  simp only [connRowClauses]
  set e1 := List.foldl (fun e npr => encAddClause e [litNeg (csr.getD y 0), npr])
    enc (List.map (fun py => litNeg (csr.getD py 0)) (List.range y)) with he1
  have hne : (List.map (fun x => litPos ((isf.getD y []).getD x 0))
      (List.range size)).isEmpty = false := by
    rw [List.isEmpty_eq_false_iff_exists_mem]
    exact ⟨litPos ((isf.getD y []).getD 0 0),
      List.mem_map.mpr ⟨0, List.mem_range.mpr hsize, rfl⟩⟩
  rw [if_neg (by rw [hne]; simp)]
  have hm : (litNeg (csr.getD y 0) ::
      (List.range size).map (fun x => litPos ((isf.getD y []).getD x 0))) ∈
      (encAddClause e1 (litNeg (csr.getD y 0) ::
        List.map (fun x => litPos ((isf.getD y []).getD x 0))
          (List.range size))).formula := by
    simp [encAddClause]
  exact mem_of_formulaExt
    (foldl_ext_proj Enc.formula _ _ _
      (fun s b _ => connCellClauses_ext size csr cs icc isf md y s b)) hm

theorem connRowClauses_mem_cell (size : Nat) (csr : List Nat)
    (cs : List (List Nat)) (icc : List (List (List Nat)))
    (isf : List (List Nat)) (md : Nat) (enc : Enc) (y x : Nat)
    (hx : x < size) {c : Clause}
    (hc : ∀ e, c ∈ (connCellClauses size csr cs icc isf md y e x).formula) :
    c ∈ (connRowClauses size csr cs icc isf md enc y).formula := by
  simp only [connRowClauses]
  exact foldl_mem_proj Enc.formula _ _ _
    (fun s b _ => connCellClauses_ext size csr cs icc isf md y s b)
    (List.mem_range.mpr hx) hc

theorem conn_mem_top (cw : CW) (size : Nat) (chars : List Char) (y : Nat)
    (hy : y < size) {c : Clause}
    (hc : ∀ e, c ∈ (connRowClauses size
      (connAlloc cw size chars).2.ccStartRow (connAlloc cw size chars).2.ccStart
      (connAlloc cw size chars).2.inCC (connAlloc cw size chars).2.isFilled
      ((size + 1) * (size + 1) / 2 - 1) e y).formula) :
    c ∈ (addConnectivityConstraint cw size chars).1.enc.formula := by
  simp only [addConnectivityConstraint]
  exact foldl_mem_proj Enc.formula _ _ _
    (fun s b _ => connRowClauses_ext _ _ _ _ _ _ s b)
    (List.mem_range.mpr hy) hc

/-- Claim C6 (amended): the anchor clauses are one-directional.  In every
assignment satisfying the emitted connectivity clauses: if `cc_start_row[y]`
is true then row `y` contains a filled cell and no earlier row is an anchor
row; and if `cc_start[y][x]` is true then `cc_start_row[y]` holds, `(x,y)`
is filled, and no earlier cell of row `y` is the anchor.  (The converse
directions claimed by the specification are not enforced; see the
counterexample.) -/
theorem c6_anchor_clauses (cw : CW) (size : Nat) (chars : List Char)
    (a : Assignment) (y x : Nat) (hy : y < size) (hx : x < size)
    (hsat : satFormula a
      (addConnectivityConstraint cw size chars).1.enc.formula = true) :
    (a ((addConnectivityConstraint cw size chars).2.ccStartRow.getD y 0) =
        true →
      (∃ x2, x2 < size ∧ a (((addConnectivityConstraint cw size
        chars).2.isFilled.getD y []).getD x2 0) = true) ∧
      (∀ y2, y2 < y → a ((addConnectivityConstraint cw size
        chars).2.ccStartRow.getD y2 0) = false)) ∧
    (a (((addConnectivityConstraint cw size chars).2.ccStart.getD y []).getD
        x 0) = true →
      a ((addConnectivityConstraint cw size chars).2.ccStartRow.getD y 0) =
        true ∧
      a (((addConnectivityConstraint cw size chars).2.isFilled.getD
        y []).getD x 0) = true ∧
      (∀ x2, x2 < x → a (((addConnectivityConstraint cw size
        chars).2.ccStart.getD y []).getD x2 0) = false)) := by
  have hT : (addConnectivityConstraint cw size chars).2 =
      (connAlloc cw size chars).2 := rfl
  rw [hT]
  set csr := (connAlloc cw size chars).2.ccStartRow with hcsr
  set cs := (connAlloc cw size chars).2.ccStart with hcs
  set icc := (connAlloc cw size chars).2.inCC with hicc
  set isf := (connAlloc cw size chars).2.isFilled with hisf
  set md := (size + 1) * (size + 1) / 2 - 1 with hmd
  constructor
  · intro hrow
    constructor
    · have hmem := conn_mem_top cw size chars y hy
        (fun e => connRowClauses_mem_anyRow size csr cs icc isf md e y
          (by omega))
      have hcl := satClause_of_mem hmem hsat
      rw [satClause, List.any_eq_true] at hcl
      obtain ⟨l, hl, hal⟩ := hcl
      rcases List.mem_cons.mp hl with rfl | hl2
      · have hal2 : a (csr.getD y 0) = false := by simpa [litNeg] using hal
        rw [hrow] at hal2
        exact Bool.noConfusion hal2
      · obtain ⟨x2, hx2, rfl⟩ := List.mem_map.mp hl2
        refine ⟨x2, List.mem_range.mp hx2, ?_⟩
        simpa [litPos] using hal
    · intro y2 hy2
      have hmem := conn_mem_top cw size chars y hy
        (fun e => connRowClauses_mem_noPrev size csr cs icc isf md e y y2 hy2)
      have hcl := satClause_of_mem hmem hsat
      rw [litNeg, litNeg, satClause_two] at hcl
      rcases hcl with h | h
      · rw [hrow] at h
        cases h
      · exact h
  · intro hcell
    have hmem1 := conn_mem_top cw size chars y hy
      (fun e => connRowClauses_mem_cell size csr cs icc isf md e y x hx
        (fun e2 => (connCellClauses_mem size csr cs icc isf md y e2 x).1))
    have hmem2 := conn_mem_top cw size chars y hy
      (fun e => connRowClauses_mem_cell size csr cs icc isf md e y x hx
        (fun e2 => (connCellClauses_mem size csr cs icc isf md y e2 x).2.1))
    have hcl1 := satClause_of_mem hmem1 hsat
    have hcl2 := satClause_of_mem hmem2 hsat
    rw [litNeg, litPos, satClause_two] at hcl1 hcl2
    refine ⟨?_, ?_, ?_⟩
    · rcases hcl1 with h | h
      · rw [hcell] at h
        cases h
      · exact h
    · rcases hcl2 with h | h
      · rw [hcell] at h
        cases h
      · exact h
    · intro x2 hx2
      have hmem3 := conn_mem_top cw size chars y hy
        (fun e => connRowClauses_mem_cell size csr cs icc isf md e y x hx
          (fun e2 =>
            (connCellClauses_mem size csr cs icc isf md y e2 x).2.2 x2 hx2))
      have hcl3 := satClause_of_mem hmem3 hsat
      rw [litNeg, litNeg, satClause_two] at hcl3
      rcases hcl3 with h | h
      · rw [hcell] at h
        cases h
      · exact h

/-- C6 concrete instance: an encoder state holding grid variables 1-4 for
the four cells of a 2×2 grid over the single-letter alphabet A, with the
variable counter at 5 and an empty clause buffer, so the connectivity
formula consists exactly of the emitted connectivity clauses. -/
def c6CW : CW :=
  ⟨⟨5, []⟩, [],
   [((0, 0, 'A'), 1), ((1, 0, 'A'), 2), ((0, 1, 'A'), 3), ((1, 1, 'A'), 4)],
   []⟩

/-- C6 concrete assignment: cells (0,0) and (0,1) are filled (grid vars 1
and 3, filled vars 27 and 29), yet the anchor row is row 1 (var 6), not
row 0 (var 5): the anchor sits at (0,1) (cc_start var 9, level-0
reachability var 19), and cell (0,0) reaches it in one step (vars
12-14). -/
def c6Assign : Assignment := fun v =>
  v ∈ [1, 3, 27, 29, 6, 9, 19, 20, 21, 22, 12, 13, 14]

/-- Claim C6 counterexample: this assignment satisfies every connectivity
clause of the 2×2 instance, row 0 contains a filled cell and no earlier
row exists — so the claimed "iff" requires anchorRow(0) — yet
`cc_start_row[0]` is false (and `cc_start_row[1]` is true even though an
earlier row contains a filled cell). -/
theorem c6_counterexample :
    satFormula c6Assign
      (addConnectivityConstraint c6CW 2 ['A']).1.enc.formula = true ∧
    c6Assign (((addConnectivityConstraint c6CW 2 ['A']).2.isFilled.getD
      0 []).getD 0 0) = true ∧
    c6Assign ((addConnectivityConstraint c6CW 2 ['A']).2.ccStartRow.getD
      0 0) = false ∧
    c6Assign ((addConnectivityConstraint c6CW 2 ['A']).2.ccStartRow.getD
      1 0) = true := by
  decide

/-- Witness for the amended C6 at the concrete instance, row 1, cell 0. -/
theorem c6_anchor_clauses_witness :
    (c6Assign ((addConnectivityConstraint c6CW 2 ['A']).2.ccStartRow.getD
        1 0) = true →
      (∃ x2, x2 < 2 ∧ c6Assign (((addConnectivityConstraint c6CW 2
        ['A']).2.isFilled.getD 1 []).getD x2 0) = true) ∧
      (∀ y2, y2 < 1 → c6Assign ((addConnectivityConstraint c6CW 2
        ['A']).2.ccStartRow.getD y2 0) = false)) ∧
    (c6Assign (((addConnectivityConstraint c6CW 2 ['A']).2.ccStart.getD
        1 []).getD 0 0) = true →
      c6Assign ((addConnectivityConstraint c6CW 2 ['A']).2.ccStartRow.getD
        1 0) = true ∧
      c6Assign (((addConnectivityConstraint c6CW 2 ['A']).2.isFilled.getD
        1 []).getD 0 0) = true ∧
      (∀ x2, x2 < 0 → c6Assign (((addConnectivityConstraint c6CW 2
        ['A']).2.ccStart.getD 1 []).getD x2 0) = false)) :=
  c6_anchor_clauses c6CW 2 ['A'] c6Assign 1 0 (by decide) (by decide)
    (by decide)

/-! ### Claim C8 — lexicon clue guarantees -/

theorem char_ofNat_toNat_valid {n : Nat} (h : n.isValidChar) :
    (Char.ofNat n).toNat = n := by
  rw [Char.ofNat, dif_pos h]
  rfl

theorem char_toUpper_not_lower (c : Char) :
    ¬(97 ≤ c.toUpper.toNat ∧ c.toUpper.toNat ≤ 122) := by
  rw [Char.toUpper]
  by_cases h : c.toNat ≥ 97 ∧ c.toNat ≤ 122
  · rw [if_pos h]
    have hval : (c.toNat - 32).isValidChar := by
      left
      omega
    rw [char_ofNat_toNat_valid hval]
    omega
  · rw [if_neg h]
    intro hc
    exact h ⟨hc.1, hc.2⟩

theorem char_toUpper_fixed {c : Char}
    (h : ¬(97 ≤ c.toNat ∧ c.toNat ≤ 122)) : c.toUpper = c := by
  rw [Char.toUpper]
  rw [if_neg (by intro hc; exact h ⟨hc.1, hc.2⟩)]

theorem char_toUpper_idem (c : Char) : c.toUpper.toUpper = c.toUpper :=
  char_toUpper_fixed (char_toUpper_not_lower c)

theorem strToUpper_idem (s : String) :
    strToUpper (strToUpper s) = strToUpper s := by
  apply String.ext
  simp only [strToUpper, List.map_map]
  exact List.map_congr_left (fun c _ => char_toUpper_idem c)

/-- All keys of the entries map are fixed by `strToUpper`. -/
def UpperKeys (m : List (String × String)) : Prop :=
  ∀ e ∈ m, strToUpper e.1 = e.1

/-- The keys of the entries map are pairwise distinct. -/
def NodupKeys (m : List (String × String)) : Prop :=
  (m.map Prod.fst).Nodup

theorem insertAssoc_upperKeys {m : List (String × String)} {k v : String}
    (hm : UpperKeys m) (hk : strToUpper k = k) :
    UpperKeys (insertAssoc m k v) := by
  rw [insertAssoc]
  split
  · intro e he
    obtain ⟨e0, he0, rfl⟩ := List.mem_map.mp he
    by_cases h : e0.1 == k
    · rw [if_pos h]
      exact hk
    · rw [if_neg h]
      exact hm e0 he0
  · intro e he
    rcases List.mem_append.mp he with h | h
    · exact hm e h
    · rw [List.mem_singleton.mp h]
      exact hk

theorem insertAssoc_keys_of_present {m : List (String × String)}
    {k v : String} (hp : m.any (fun e => e.1 == k) = true) :
    (insertAssoc m k v).map Prod.fst = m.map Prod.fst := by
  rw [insertAssoc, if_pos hp, List.map_map]
  apply List.map_congr_left
  intro e _
  by_cases h : e.1 == k
  · simp only [Function.comp]
    rw [if_pos h]
    exact (eq_of_beq h).symm
  · simp only [Function.comp]
    rw [if_neg h]

theorem insertAssoc_nodupKeys {m : List (String × String)} {k v : String}
    (hm : NodupKeys m) : NodupKeys (insertAssoc m k v) := by
  by_cases hp : m.any (fun e => e.1 == k) = true
  · rw [NodupKeys, insertAssoc_keys_of_present hp]
    exact hm
  · rw [NodupKeys, insertAssoc, if_neg hp]
    rw [List.map_append]
    rw [List.nodup_append]
    refine ⟨hm, List.nodup_singleton _, ?_⟩
    intro a ha hb
    simp only [List.map_cons, List.map_nil, List.mem_singleton] at hb
    subst hb
    obtain ⟨e, he, hek⟩ := List.mem_map.mp ha
    apply hp
    rw [List.any_eq_true]
    exact ⟨e, he, by rw [hek]; simp⟩

theorem dictEntriesStep_inv {init : List (String × String)}
    (wd : String × String) (h1 : UpperKeys init) (h2 : NodupKeys init) :
    UpperKeys (dictEntriesStep init wd) ∧
    NodupKeys (dictEntriesStep init wd) := by
  simp only [dictEntriesStep]
  split
  · split
    · split
      · exact ⟨h1, h2⟩
      · exact ⟨insertAssoc_upperKeys h1 (strToUpper_idem _),
          insertAssoc_nodupKeys h2⟩
    · exact ⟨h1, h2⟩
  · exact ⟨h1, h2⟩

theorem dictEntries_inv (raw : List (String × String)) :
    UpperKeys (dictEntries raw) ∧ NodupKeys (dictEntries raw) := by
  rw [dictEntries]
  suffices h : ∀ init : List (String × String),
      UpperKeys init → NodupKeys init →
      UpperKeys (raw.foldl dictEntriesStep init) ∧
      NodupKeys (raw.foldl dictEntriesStep init) by
    exact h [] (by intro e he; cases he) List.nodup_nil
  induction raw with
  | nil =>
    intro init hu hn
    exact ⟨hu, hn⟩
  | cons wd rest ih =>
    intro init hu hn
    rw [List.foldl_cons]
    obtain ⟨hu2, hn2⟩ := dictEntriesStep_inv wd hu hn
    exact ih (dictEntriesStep init wd) hu2 hn2

theorem lookup_of_mem_nodup {m : List (String × String)} {k v : String}
    (hnd : NodupKeys m) (hm : (k, v) ∈ m) : m.lookup k = some v := by
  induction m with
  | nil => cases hm
  | cons e rest ih =>
    obtain ⟨k2, v2⟩ := e
    rw [List.lookup_cons]
    rcases List.mem_cons.mp hm with heq | htail
    · rw [show k2 = k from (Prod.mk.injEq .. ▸ heq).1.symm]
      simp
      exact ((Prod.mk.injEq .. ▸ heq).2).symm
    · by_cases hbeq : k == k2
      · exfalso
        rw [NodupKeys, List.map_cons, List.nodup_cons] at hnd
        apply hnd.1
        rw [← eq_of_beq hbeq]
        exact List.mem_map.mpr ⟨(k, v), htail, rfl⟩
      · rw [show (k == k2) = false from by simpa using hbeq]
        apply ih
        rw [NodupKeys, List.map_cons, List.nodup_cons] at hnd
        exact hnd.2
        exact htail

/-- Claim C8: for every word in the lexicon word list, the clue returned by
`get_clue` has length at least 10, does not case-insensitively contain the
word, contains no star character, contains no close-paren-space substring,
and does not end with a close paren.  This holds for every parsed
dictionary content and every clue-extraction function — the word filter
(dictionary.rs 58-83) checks exactly these properties of the extracted
clue, and `get_clue` (dictionary.rs 92-99) returns that same clue because
the word list's entries are keyed by their own uppercase form. -/
theorem c8_lexicon_clues (extractClue : String → String)
    (raw : List (String × String)) (w : String)
    (hw : w ∈ dictWords extractClue raw) :
    10 ≤ (getClue extractClue raw w).length ∧
    strContains (strToLower (getClue extractClue raw w)) (strToLower w) =
      false ∧
    strContains (getClue extractClue raw w) star = false ∧
    strContains (getClue extractClue raw w) parenSpace = false ∧
    strEndsWith (getClue extractClue raw w) closeParen = false := by
  rw [dictWords] at hw
  obtain ⟨e, he, rfl⟩ := List.mem_map.mp hw
  rw [List.mem_filter] at he
  obtain ⟨hmem, hfilt⟩ := he
  obtain ⟨hup, hnd⟩ := dictEntries_inv raw
  have hkey : strToUpper e.1 = e.1 := hup e hmem
  have hlook : (dictEntries raw).lookup (strToUpper e.1) = some e.2 := by
    rw [hkey]
    exact lookup_of_mem_nodup hnd hmem
  have hclue : getClue extractClue raw e.1 = extractClue e.2 := by
    rw [getClue, hlook]
  rw [hclue]
  simp only [dictFilterWord, Bool.and_eq_true] at hfilt
  have h10 : decide (10 < (extractClue e.2).length) = true := by tauto
  have hci : (!strContains (strToLower (extractClue e.2))
      (strToLower e.1)) = true := by tauto
  have hst : (!strContains (extractClue e.2) star) = true := by tauto
  have hps : (!strContains (extractClue e.2) parenSpace) = true := by tauto
  have hep : (!strEndsWith (extractClue e.2) closeParen) = true := by tauto
  refine ⟨?_, by simpa using hci, by simpa using hst, by simpa using hps,
    by simpa using hep⟩
  have := of_decide_eq_true h10
  omega

/-- C8 witness data: one parsed entry and a constant extraction
function. -/
def c8Raw : List (String × String) := [("cat", "feline kept as a pet")]

/-- C8 witness clue text. -/
def c8Clue : String := "Keeps mice away from the barn"

/-- C8 witness extraction function. -/
def c8Extract : String → String := fun _ => c8Clue

/-- C8 witness word. -/
def c8Word : String := "CAT"

/-- Witness for C8 at concrete dictionary content. -/
theorem c8_lexicon_clues_witness :
    10 ≤ (getClue c8Extract c8Raw c8Word).length ∧
    strContains (strToLower (getClue c8Extract c8Raw c8Word))
      (strToLower c8Word) = false ∧
    strContains (getClue c8Extract c8Raw c8Word) star = false ∧
    strContains (getClue c8Extract c8Raw c8Word) parenSpace = false ∧
    strEndsWith (getClue c8Extract c8Raw c8Word) closeParen = false :=
  c8_lexicon_clues c8Extract c8Raw c8Word (by decide)

/-! ### Claims C9 and C10 — the puzzle assembler -/

/-- A grid (or number matrix) of exactly `size` rows of length `size`. -/
def Dims {α : Type} (g : List (List α)) (size : Nat) : Prop :=
  g.length = size ∧ ∀ row ∈ g, row.length = size

theorem readCell_isSome {α : Type} {g : List (List α)} {size y x : Nat}
    (hd : Dims g size) (hy : y < size) (hx : x < size) :
    ∃ v, readCell g y x = some v := by
  obtain ⟨hlen, hrows⟩ := hd
  have hy' : y < g.length := by omega
  have hrl : g[y].length = size := hrows g[y] (g.getElem_mem hy')
  have hx2 : x < g[y].length := by omega
  refine ⟨g[y][x], ?_⟩
  rw [readCell, List.getElem?_eq_getElem hy']
  exact List.getElem?_eq_getElem hx2

theorem writeCell_some {α : Type} {g : List (List α)} {size y x : Nat}
    (a : α) (hd : Dims g size) (hy : y < size) (hx : x < size) :
    ∃ g2, writeCell g y x a = some g2 ∧ Dims g2 size := by
  obtain ⟨hlen, hrows⟩ := hd
  have hy' : y < g.length := by omega
  have hrl : g[y].length = size := hrows g[y] (g.getElem_mem hy')
  refine ⟨g.set y (g[y].set x a), ?_, ?_, ?_⟩
  · rw [writeCell, List.getElem?_eq_getElem hy']
    show (if x < g[y].length then some (g.set y (g[y].set x a)) else none) =
      some (g.set y (g[y].set x a))
    rw [if_pos (by omega)]
  · simp [hlen]
  · intro row hrow
    rcases List.mem_or_eq_of_mem_set hrow with h | h
    · exact hrows row h
    · rw [h]
      simp [hrl]

theorem foldlM_option_inv {σ β : Type} (Inv : σ → Prop) (f : σ → β → Option σ)
    (l : List β) (init : σ) (h0 : Inv init)
    (hstep : ∀ s b, b ∈ l → Inv s → ∃ s2, f s b = some s2 ∧ Inv s2) :
    ∃ s2, l.foldlM f init = some s2 ∧ Inv s2 := by
  induction l generalizing init with
  | nil => exact ⟨init, rfl, h0⟩
  | cons b rest ih =>
    obtain ⟨s1, hs1, hinv1⟩ := hstep init b (by simp) h0
    obtain ⟨s2, hs2, hinv2⟩ := ih s1 hinv1
      (fun s b2 hb2 hs => hstep s b2 (by simp [hb2]) hs)
    refine ⟨s2, ?_, hinv2⟩
    rw [List.foldlM_cons, hs1]
    simpa using hs2

theorem enum_fst_lt {α : Type} {l : List α} {iw : Nat × α}
    (h : iw ∈ l.enum) : iw.1 < l.length := by
  have := List.fst_lt_of_mem_enum h
  exact this

/-- The fit precondition (claim C10) for one placement. -/
def FitsGrid (p : Placement) (size : Nat) : Prop :=
  p.x < size ∧ p.y < size ∧
  (p.horizontal = true → p.x + p.word.length ≤ size) ∧
  (p.horizontal = false → p.y + p.word.length ≤ size)

instance (p : Placement) (size : Nat) : Decidable (FitsGrid p size) := by
  unfold FitsGrid
  infer_instance

theorem writePlacement_some {g : List (List (Option Char))} {size : Nat}
    {p : Placement} (hd : Dims g size) (hfit : FitsGrid p size) :
    ∃ g2, writePlacement g p = some g2 ∧ Dims g2 size := by
  rw [writePlacement]
  refine foldlM_option_inv (fun g => Dims g size) _ _ _ hd ?_
  intro g2 iw hiw hd2
  have hi : iw.1 < p.word.length := by
    have := enum_fst_lt hiw
    simpa using this
  obtain ⟨hx, hy, hh, hv⟩ := hfit
  cases hph : p.horizontal with
  | true =>
    have hxb : p.x + iw.1 < size := by
      have := hh hph
      omega
    simp only [hph, if_pos]
    exact writeCell_some _ hd2 hy hxb
  | false =>
    have hyb : p.y + iw.1 < size := by
      have := hv hph
      omega
    simp only [hph]
    exact writeCell_some _ hd2 hyb hx

theorem buildGrid_some {placements : List Placement} {size : Nat}
    (hfit : ∀ p ∈ placements, FitsGrid p size) :
    ∃ g, buildGrid placements size = some g ∧ Dims g size := by
  rw [buildGrid]
  refine foldlM_option_inv (fun g => Dims g size) _ _ _ ?_ ?_
  · constructor
    · simp
    · intro row hrow
      rw [List.eq_of_mem_replicate hrow]
      simp
  · intro g p hp hd
    exact writePlacement_some hd (hfit p hp)

theorem startsAcross_some {grid : List (List (Option Char))} {size x y : Nat}
    (hd : Dims grid size) (hy : y < size) (hx : x < size) :
    ∃ b, startsAcross grid size x y = some b := by
  by_cases hx0 : x = 0
  · subst hx0
    by_cases hnext : (0 : Nat) + 1 < size
    · obtain ⟨v, hv⟩ := readCell_isSome hd hy hnext
      exact ⟨v.isSome, by simp [startsAcross, hnext, hv]⟩
    · exact ⟨false, by simp [startsAcross, hnext]⟩
  · obtain ⟨c, hc⟩ := readCell_isSome hd hy (show x - 1 < size by omega)
    cases c with
    | none =>
      by_cases hnext : x + 1 < size
      · obtain ⟨v, hv⟩ := readCell_isSome hd hy hnext
        exact ⟨v.isSome, by simp [startsAcross, hx0, hc, hnext, hv]⟩
      · exact ⟨false, by simp [startsAcross, hx0, hc, hnext]⟩
    | some ch =>
      exact ⟨false, by simp [startsAcross, hx0, hc]⟩

theorem startsDown_some {grid : List (List (Option Char))} {size x y : Nat}
    (hd : Dims grid size) (hy : y < size) (hx : x < size) :
    ∃ b, startsDown grid size x y = some b := by
  by_cases hy0 : y = 0
  · subst hy0
    by_cases hnext : (0 : Nat) + 1 < size
    · obtain ⟨v, hv⟩ := readCell_isSome hd hnext hx
      exact ⟨v.isSome, by simp [startsDown, hnext, hv]⟩
    · exact ⟨false, by simp [startsDown, hnext]⟩
  · obtain ⟨c, hc⟩ := readCell_isSome hd (show y - 1 < size by omega) hx
    cases c with
    | none =>
      by_cases hnext : y + 1 < size
      · obtain ⟨v, hv⟩ := readCell_isSome hd hnext hx
        exact ⟨v.isSome, by simp [startsDown, hy0, hc, hnext, hv]⟩
      · exact ⟨false, by simp [startsDown, hy0, hc, hnext]⟩
    | some ch =>
      exact ⟨false, by simp [startsDown, hy0, hc]⟩

theorem numberCellsStep_some {grid : List (List (Option Char))} {size : Nat}
    (hdg : Dims grid size) (s : List (List Nat) × Nat) (pos : Nat × Nat)
    (hy : pos.1 < size) (hx : pos.2 < size) (hd : Dims s.1 size) :
    ∃ s2, numberCellsStep grid size s pos = some s2 ∧ Dims s2.1 size := by
  obtain ⟨nums, ctr⟩ := s
  obtain ⟨cell, hcell⟩ := readCell_isSome hdg hy hx
  obtain ⟨sa, hsa⟩ := startsAcross_some hdg hy hx
  obtain ⟨sd, hsd⟩ := startsDown_some hdg hy hx
  have hd2 : Dims nums size := hd
  cases cell with
  | none => exact ⟨(nums, ctr), by simp [numberCellsStep, hcell], hd2⟩
  | some ch =>
    obtain ⟨nums2, hw, hdw⟩ := writeCell_some ctr hd2 hy hx
    cases sa <;> cases sd
    · exact ⟨(nums, ctr), by simp [numberCellsStep, hcell, hsa, hsd], hd2⟩
    · exact ⟨(nums2, ctr + 1),
        by simp [numberCellsStep, hcell, hsa, hsd, hw], hdw⟩
    · exact ⟨(nums2, ctr + 1),
        by simp [numberCellsStep, hcell, hsa, hsd, hw], hdw⟩
    · exact ⟨(nums2, ctr + 1),
        by simp [numberCellsStep, hcell, hsa, hsd, hw], hdw⟩

theorem mem_readingOrder {size : Nat} {pos : Nat × Nat}
    (h : pos ∈ readingOrder size) : pos.1 < size ∧ pos.2 < size := by
  rw [readingOrder, List.mem_flatten] at h
  obtain ⟨row, hrow, hpos⟩ := h
  obtain ⟨y, hy, rfl⟩ := List.mem_map.mp hrow
  obtain ⟨x, hx, rfl⟩ := List.mem_map.mp hpos
  exact ⟨List.mem_range.mp hy, List.mem_range.mp hx⟩

theorem numberCells_some {grid : List (List (Option Char))} {size : Nat}
    (hdg : Dims grid size) :
    ∃ nums, numberCells grid size = some nums ∧ Dims nums size := by
  obtain ⟨s2, hs2, hd2⟩ := foldlM_option_inv
    (fun s : List (List Nat) × Nat => Dims s.1 size)
    (numberCellsStep grid size) (readingOrder size)
    (List.replicate size (List.replicate size 0), 1)
    ⟨by simp, by
      intro r hr
      rw [List.eq_of_mem_replicate hr]
      simp⟩
    (fun s pos hpos hinv => numberCellsStep_some hdg s pos
      (mem_readingOrder hpos).1 (mem_readingOrder hpos).2 hinv)
  refine ⟨s2.1, ?_, hd2⟩
  rw [numberCells, hs2]
  rfl

theorem buildClues_some {placements : List Placement}
    {nums : List (List Nat)} {size : Nat} (clueFn : String → String)
    (hd : Dims nums size) (hfit : ∀ p ∈ placements, FitsGrid p size) :
    ∃ cl, buildClues placements nums clueFn = some cl := by
  obtain ⟨s2, hs2, _⟩ := foldlM_option_inv (fun _ => True)
    (fun acc p => do
      let number ← readCell nums p.y p.x
      let c : Clue := ⟨number, p.word, clueFn p.word, p.x, p.y⟩
      if p.horizontal then pure (acc.1 ++ [c], acc.2)
      else pure (acc.1, acc.2 ++ [c])) placements
    (([], []) : List Clue × List Clue) trivial
    (by
      intro s p hp _
      obtain ⟨hx, hy, _, _⟩ := hfit p hp
      obtain ⟨n, hn⟩ := readCell_isSome hd hy hx
      cases hph : p.horizontal with
      | true =>
        exact ⟨(s.1 ++ [⟨n, p.word, clueFn p.word, p.x, p.y⟩], s.2),
          by simp [hn, hph], trivial⟩
      | false =>
        exact ⟨(s.1, s.2 ++ [⟨n, p.word, clueFn p.word, p.x, p.y⟩]),
          by simp [hn, hph], trivial⟩)
  exact ⟨s2, hs2⟩

/-- Claim C10: `from_placements` is total — no out-of-bounds access, hence
no panic — whenever every input placement fits inside the grid: the
origins are in range and the word extent fits in its direction.  The
grid-write, numbering and clue loops then only access indices below
`size` (every access is modelled as a checked access returning `none` on
a panic). -/
theorem c10_from_placements_total (placements : List Placement) (size : Nat)
    (clueFn : String → String) (t : Nat)
    (hfit : ∀ p ∈ placements, FitsGrid p size) :
    (fromPlacements placements size clueFn t).isSome = true := by
  obtain ⟨g, hg, hdg⟩ := buildGrid_some hfit
  obtain ⟨nums, hn, hdn⟩ := numberCells_some hdg
  obtain ⟨cl, hcl⟩ := buildClues_some clueFn hdn hfit
  rw [fromPlacements]
  simp [hg, hn, hcl]

/-- C10 witness placements (the numbering scenario of the spec): CAT
across at the origin, CAR down at the origin, TAR down at (2,0), on a 5×5
grid. -/
def c10Placements : List Placement :=
  [⟨"CAT", 0, 0, true⟩, ⟨"CAR", 0, 0, false⟩, ⟨"TAR", 2, 0, false⟩]

/-- Witness for C10 at the concrete placement list. -/
theorem c10_from_placements_total_witness :
    (fromPlacements c10Placements 5 (fun w => w) 0).isSome = true :=
  c10_from_placements_total c10Placements 5 (fun w => w) 0 (by decide)

/-- Claim C9: the puzzle built by `from_placements` has
`metadata.word_count` equal to the number of placements and
`metadata.total_letters` equal to the sum of the placement words'
lengths. -/
theorem c9_metadata (placements : List Placement) (size : Nat)
    (clueFn : String → String) (t : Nat) (pz : CrosswordPuzzle)
    (h : fromPlacements placements size clueFn t = some pz) :
    pz.metadata.wordCount = placements.length ∧
    pz.metadata.totalLetters =
      (placements.map (fun p => p.word.length)).sum := by
  rw [fromPlacements] at h
  simp only [bind, Option.bind_eq_some, pure, Option.some.injEq] at h
  obtain ⟨grid, hg, nums, hn, clues, hc, h⟩ := h
  subst h
  exact ⟨rfl, rfl⟩

/-- C9 witness placements. -/
def c9Placements : List Placement := [⟨"AB", 0, 0, true⟩]

/-- C9 witness puzzle: the value `from_placements` builds from
`c9Placements` on a 2×2 grid. -/
def c9Puzzle : CrosswordPuzzle :=
  ⟨[[some 'A', some 'B'], [none, none]],
   [⟨1, "AB", "AB", 0, 0⟩], [], ⟨2, 1, 2, 5⟩⟩

/-- Witness for C9 at the concrete placement list. -/
theorem c9_metadata_witness :
    c9Puzzle.metadata.wordCount = c9Placements.length ∧
    c9Puzzle.metadata.totalLetters =
      (c9Placements.map (fun p => p.word.length)).sum :=
  c9_metadata c9Placements 2 (fun w => w) 5 c9Puzzle (by decide)

/-! ### C7: the cell-numbering rule

The following `...Spec` predicates transcribe the claim wording for the
numbering rule (filled cell starting an across or down entry); the claim
is that the numbering loop of `from_placements` realises them in reading
order starting at 1.  They are compared against the loop built from the
source above (`numberCells`). -/

/-- Cell `(x, y)` of the grid holds a letter (out-of-grid reads as empty). -/
def cellFilled (grid : List (List (Option Char))) (y x : Nat) : Bool :=
  ((grid.getD y []).getD x none).isSome

/-- Claim wording: the cell to the left is absent or off-grid, and the
cell to the right is in-grid and filled. -/
def startsAcrossSpec (grid : List (List (Option Char))) (size y x : Nat) :
    Bool :=
  (decide (x = 0) || !(cellFilled grid y (x - 1))) &&
    decide (x + 1 < size) && cellFilled grid y (x + 1)

/-- Claim wording: the cell above is absent or off-grid, and the cell
below is in-grid and filled. -/
def startsDownSpec (grid : List (List (Option Char))) (size y x : Nat) :
    Bool :=
  (decide (y = 0) || !(cellFilled grid (y - 1) x)) &&
    decide (y + 1 < size) && cellFilled grid (y + 1) x

/-- Claim wording: the cell is filled and starts an across or a down
entry. -/
def startsEntrySpec (grid : List (List (Option Char))) (size y x : Nat) :
    Bool :=
  cellFilled grid y x && (startsAcrossSpec grid size y x ||
    startsDownSpec grid size y x)

theorem readCell_spec {grid : List (List (Option Char))} {size y x : Nat}
    (hd : Dims grid size) (hy : y < size) (hx : x < size) :
    readCell grid y x = some ((grid.getD y []).getD x none) := by
  obtain ⟨hlen, hrows⟩ := hd
  have hy2 : y < grid.length := by omega
  have hrl : grid[y].length = size := hrows _ (grid.getElem_mem hy2)
  have h1 : grid.getD y [] = grid[y] := List.getD_eq_getElem grid [] hy2
  have hx2 : x < grid[y].length := by omega
  have h2 : (grid[y]).getD x none = grid[y][x] :=
    List.getD_eq_getElem _ none hx2
  rw [readCell, List.getElem?_eq_getElem hy2]
  show grid[y][x]? = some ((grid.getD y []).getD x none)
  rw [List.getElem?_eq_getElem (show x < grid[y].length by omega), h1, h2]

theorem startsAcross_spec {grid : List (List (Option Char))} {size y x : Nat}
    (hd : Dims grid size) (hy : y < size) (hx : x < size) :
    startsAcross grid size x y = some (startsAcrossSpec grid size y x) := by
  by_cases hnext : x + 1 < size
  · have hvR := readCell_spec hd hy hnext
    by_cases hx0 : x = 0
    · subst hx0
      simp [startsAcross, startsAcrossSpec, cellFilled, hnext, hvR]
    · have hvL := readCell_spec hd hy (show x - 1 < size by omega)
      cases hcl : (grid[y]?.getD [])[x - 1]?.getD (none : Option Char) with
      | none =>
        simp [startsAcross, startsAcrossSpec, cellFilled,
          List.getD_eq_getElem?_getD, hx0, hnext, hvL, hvR, hcl]
      | some ch =>
        simp [startsAcross, startsAcrossSpec, cellFilled,
          List.getD_eq_getElem?_getD, hx0, hnext, hvL, hcl]
  · by_cases hx0 : x = 0
    · subst hx0
      simp [startsAcross, startsAcrossSpec, hnext]
    · have hvL := readCell_spec hd hy (show x - 1 < size by omega)
      cases hcl : (grid[y]?.getD [])[x - 1]?.getD (none : Option Char) with
      | none =>
        simp [startsAcross, startsAcrossSpec, cellFilled,
          List.getD_eq_getElem?_getD, hx0, hnext, hvL, hcl]
      | some ch =>
        simp [startsAcross, startsAcrossSpec, cellFilled,
          List.getD_eq_getElem?_getD, hx0, hnext, hvL, hcl]

theorem startsDown_spec {grid : List (List (Option Char))} {size y x : Nat}
    (hd : Dims grid size) (hy : y < size) (hx : x < size) :
    startsDown grid size x y = some (startsDownSpec grid size y x) := by
  by_cases hnext : y + 1 < size
  · have hvR := readCell_spec hd hnext hx
    by_cases hy0 : y = 0
    · subst hy0
      simp [startsDown, startsDownSpec, cellFilled, hnext, hvR]
    · have hvL := readCell_spec hd (show y - 1 < size by omega) hx
      cases hcl : (grid[y - 1]?.getD [])[x]?.getD (none : Option Char) with
      | none =>
        simp [startsDown, startsDownSpec, cellFilled,
          List.getD_eq_getElem?_getD, hy0, hnext, hvL, hvR, hcl]
      | some ch =>
        simp [startsDown, startsDownSpec, cellFilled,
          List.getD_eq_getElem?_getD, hy0, hnext, hvL, hcl]
  · by_cases hy0 : y = 0
    · subst hy0
      simp [startsDown, startsDownSpec, hnext]
    · have hvL := readCell_spec hd (show y - 1 < size by omega) hx
      cases hcl : (grid[y - 1]?.getD [])[x]?.getD (none : Option Char) with
      | none =>
        simp [startsDown, startsDownSpec, cellFilled,
          List.getD_eq_getElem?_getD, hy0, hnext, hvL, hcl]
      | some ch =>
        simp [startsDown, startsDownSpec, cellFilled,
          List.getD_eq_getElem?_getD, hy0, hnext, hvL, hcl]

theorem writeCell_frame {α : Type} {g g2 : List (List α)} {y x : Nat} {a : α}
    (hw : writeCell g y x a = some g2) (y2 x2 : Nat)
    (hne : ¬(y2 = y ∧ x2 = x)) :
    readCell g2 y2 x2 = readCell g y2 x2 := by
  rw [writeCell] at hw
  cases hg : g[y]? with
  | none =>
    rw [hg] at hw
    cases hw
  | some row =>
    rw [hg] at hw
    have hw2 : (if x < row.length then some (g.set y (row.set x a))
        else none) = some g2 := hw
    by_cases hxr : x < row.length
    · rw [if_pos hxr] at hw2
      injection hw2 with h
      subst h
      have hyl : y < g.length := by
        by_contra hle
        rw [List.getElem?_eq_none (by omega)] at hg
        cases hg
      by_cases hyy : y2 = y
      · subst hyy
        have hxx : x2 ≠ x := fun h => hne ⟨rfl, h⟩
        rw [readCell, readCell, List.getElem?_set_self hyl, hg]
        show (row.set x a)[x2]? = row[x2]?
        exact List.getElem?_set_ne (Ne.symm hxx)
      · rw [readCell, readCell, List.getElem?_set_ne (Ne.symm hyy)]
    · rw [if_neg hxr] at hw2
      cases hw2

theorem writeCell_read {α : Type} {g g2 : List (List α)} {y x : Nat} {a : α}
    (hw : writeCell g y x a = some g2) : readCell g2 y x = some a := by
  rw [writeCell] at hw
  cases hg : g[y]? with
  | none =>
    rw [hg] at hw
    cases hw
  | some row =>
    rw [hg] at hw
    have hw2 : (if x < row.length then some (g.set y (row.set x a))
        else none) = some g2 := hw
    by_cases hxr : x < row.length
    · rw [if_pos hxr] at hw2
      injection hw2 with h
      subst h
      have hyl : y < g.length := by
        by_contra hle
        rw [List.getElem?_eq_none (by omega)] at hg
        cases hg
      rw [readCell, List.getElem?_set_self hyl]
      show (row.set x a)[x]? = some a
      exact List.getElem?_set_self hxr
    · rw [if_neg hxr] at hw2
      cases hw2

theorem readingOrder_mem {size y x : Nat} (hy : y < size) (hx : x < size) :
    (y, x) ∈ readingOrder size := by
  rw [readingOrder, List.mem_flatten]
  exact ⟨(List.range size).map (fun x2 => (y, x2)),
    List.mem_map_of_mem _ (List.mem_range.mpr hy),
    List.mem_map_of_mem _ (List.mem_range.mpr hx)⟩

theorem readingOrder_nodup (size : Nat) : (readingOrder size).Nodup := by
  rw [readingOrder, List.nodup_flatten]
  constructor
  · intro l hl
    obtain ⟨y, _, rfl⟩ := List.mem_map.mp hl
    exact (List.nodup_range size).map (fun a b h => by simpa using h)
  · rw [List.pairwise_map]
    refine List.Pairwise.imp ?_ (List.pairwise_lt_range size)
    intro y1 y2 hlt q hq1 hq2
    obtain ⟨x1, _, rfl⟩ := List.mem_map.mp hq1
    obtain ⟨x2, _, heq⟩ := List.mem_map.mp hq2
    injection heq with h1 h2
    omega

theorem numberLoop_spec {grid : List (List (Option Char))} {size : Nat}
    (hdg : Dims grid size) (L : List (Nat × Nat)) :
    ∀ (nums0 : List (List Nat)) (ctr0 : Nat),
      Dims nums0 size → (∀ q ∈ L, q.1 < size ∧ q.2 < size) → L.Nodup →
      ∃ nums ctr,
        L.foldlM (numberCellsStep grid size) (nums0, ctr0) =
          some (nums, ctr) ∧
        Dims nums size ∧
        ctr = ctr0 + L.countP (fun q => startsEntrySpec grid size q.1 q.2) ∧
        (∀ q : Nat × Nat, q ∉ L →
          readCell nums q.1 q.2 = readCell nums0 q.1 q.2) ∧
        (∀ q ∈ L, readCell nums q.1 q.2 =
          if startsEntrySpec grid size q.1 q.2 then
            some (ctr0 + (L.takeWhile (fun r => r != q)).countP
              (fun r => startsEntrySpec grid size r.1 r.2))
          else readCell nums0 q.1 q.2) := by
  induction L with
  | nil =>
    intro nums0 ctr0 hd _ _
    exact ⟨nums0, ctr0, rfl, hd, by simp, fun q _ => rfl, by simp⟩
  | cons pos rest ih =>
    intro nums0 ctr0 hd hb hnd
    obtain ⟨hy, hx⟩ := hb pos (by simp)
    have hcellr := readCell_spec hdg hy hx
    have hsa := startsAcross_spec hdg hy hx
    have hsd := startsDown_spec hdg hy hx
    have hposrest : pos ∉ rest := (List.nodup_cons.mp hnd).1
    cases hB : startsEntrySpec grid size pos.1 pos.2 with
    | false =>
      have hstep : numberCellsStep grid size (nums0, ctr0) pos =
          some (nums0, ctr0) := by
        rw [startsEntrySpec] at hB
        cases hfill : cellFilled grid pos.1 pos.2 with
        | false =>
          rw [cellFilled] at hfill
          have hfill2 :
              ((grid[pos.1]?.getD [])[pos.2]?.getD none).isSome = false := by
            simpa [List.getD_eq_getElem?_getD] using hfill
          simp [numberCellsStep, hcellr, hfill2]
        | true =>
          rw [hfill, Bool.true_and] at hB
          rw [cellFilled] at hfill
          have hfill2 :
              ((grid[pos.1]?.getD [])[pos.2]?.getD none).isSome = true := by
            simpa [List.getD_eq_getElem?_getD] using hfill
          have hB2 : startsAcrossSpec grid size pos.1 pos.2 = false ∧
              startsDownSpec grid size pos.1 pos.2 = false := by
            simpa using hB
          simp [numberCellsStep, hcellr, hfill2, hsa, hsd, hB2.1, hB2.2]
      obtain ⟨nums, ctr, hfold, hdn, hctr, hframe, hvals⟩ :=
        ih nums0 ctr0 hd (fun q hq => hb q (by simp [hq])) hnd.of_cons
      refine ⟨nums, ctr, ?_, hdn, ?_, ?_, ?_⟩
      · rw [List.foldlM_cons, hstep]
        simpa using hfold
      · rw [hctr, List.countP_cons]
        simp [hB]
      · intro q hq
        exact hframe q (fun h => hq (by simp [h]))
      · intro q hq
        rcases List.mem_cons.mp hq with rfl | hq2
        · rw [hframe q hposrest, hB]
          simp
        · rw [hvals q hq2]
          have hpq : (pos != q) = true := by
            simp only [bne_iff_ne, ne_eq]
            intro h
            rw [h] at hposrest
            exact hposrest hq2
          rw [List.takeWhile_cons, if_pos hpq, List.countP_cons]
          simp [hB]
    | true =>
      have hfill : cellFilled grid pos.1 pos.2 = true := by
        rw [startsEntrySpec, Bool.and_eq_true] at hB
        exact hB.1
      have hor : (startsAcrossSpec grid size pos.1 pos.2 ||
          startsDownSpec grid size pos.1 pos.2) = true := by
        rw [startsEntrySpec, Bool.and_eq_true] at hB
        exact hB.2
      obtain ⟨nums1, hw, hd1⟩ := writeCell_some ctr0 hd hy hx
      have hstep : numberCellsStep grid size (nums0, ctr0) pos =
          some (nums1, ctr0 + 1) := by
        rw [cellFilled] at hfill
        have hfill2 :
            ((grid[pos.1]?.getD [])[pos.2]?.getD none).isSome = true := by
          simpa [List.getD_eq_getElem?_getD] using hfill
        have hor2 : startsAcrossSpec grid size pos.1 pos.2 = true ∨
            startsDownSpec grid size pos.1 pos.2 = true := by
          simpa using hor
        simp [numberCellsStep, hcellr, hfill2, hsa, hsd, hor2, hw]
      obtain ⟨nums, ctr, hfold, hdn, hctr, hframe, hvals⟩ :=
        ih nums1 (ctr0 + 1) hd1 (fun q hq => hb q (by simp [hq]))
          hnd.of_cons
      refine ⟨nums, ctr, ?_, hdn, ?_, ?_, ?_⟩
      · rw [List.foldlM_cons, hstep]
        simpa using hfold
      · rw [hctr, List.countP_cons]
        simp [hB]
        omega
      · intro q hq
        rw [hframe q (fun h => hq (by simp [h]))]
        exact writeCell_frame hw q.1 q.2 (fun h => hq (by
          simp only [List.mem_cons]
          left
          exact Prod.ext h.1 h.2))
      · intro q hq
        rcases List.mem_cons.mp hq with rfl | hq2
        · rw [hframe q hposrest, writeCell_read hw, hB]
          simp
        · have hpq : (pos != q) = true := by
            simp only [bne_iff_ne, ne_eq]
            intro h
            rw [h] at hposrest
            exact hposrest hq2
          rw [hvals q hq2, List.takeWhile_cons, if_pos hpq,
            List.countP_cons]
          cases hBq : startsEntrySpec grid size q.1 q.2 with
          | true =>
            rw [if_pos rfl, if_pos rfl]
            congr 1
            simp [hB]
            omega
          | false =>
            rw [if_neg (by simp), if_neg (by simp)]
            exact writeCell_frame hw q.1 q.2 (fun h => hposrest (by
              have : pos = q := Prod.ext h.1.symm h.2.symm
              rw [this]
              exact hq2))

/-- Claim C7: `from_placements` assigns cell numbers in row-major reading
order starting at 1: an in-grid cell `(x, y)` receives the next
sequential number — one more than the count of entry-starting cells
strictly earlier in reading order — iff it is filled and starts an
across entry (left cell absent or off-grid, right cell in-grid and
filled) or a down entry (vertically symmetric); every other cell
receives no number (0). -/
theorem c7_cell_numbering (grid : List (List (Option Char))) (size : Nat)
    (nums : List (List Nat)) (y x : Nat)
    (hdg : Dims grid size) (hn : numberCells grid size = some nums)
    (hy : y < size) (hx : x < size) :
    readCell nums y x = some (
      if startsEntrySpec grid size y x then
        ((readingOrder size).takeWhile (fun r => r != (y, x))).countP
          (fun r => startsEntrySpec grid size r.1 r.2) + 1
      else 0) := by
  obtain ⟨nums2, ctr, hfold, hdn, _, _, hvals⟩ :=
    numberLoop_spec hdg (readingOrder size)
      (List.replicate size (List.replicate size 0)) 1
      ⟨by simp, fun r hr => by
        rw [List.eq_of_mem_replicate hr]
        simp⟩
      (fun q hq => mem_readingOrder hq) (readingOrder_nodup size)
  rw [numberCells, hfold] at hn
  have hn2 : nums2 = nums := by
    simpa using hn
  subst hn2
  have hval := hvals (y, x) (readingOrder_mem hy hx)
  have hinit : readCell (List.replicate size
      (List.replicate size (0 : Nat))) y x = some 0 := by
    rw [readCell, List.getElem?_replicate, if_pos hy]
    show (List.replicate size (0 : Nat))[x]? = some 0
    rw [List.getElem?_replicate, if_pos hx]
  rw [hval]
  cases hB : startsEntrySpec grid size y x with
  | true =>
    rw [if_pos rfl, if_pos rfl, Nat.add_comm]
  | false =>
    rw [if_neg (by simp), if_neg (by simp), hinit]

/-- C7 witness grid: `AB` written across at the origin of a 2×2 grid. -/
def c7Grid : List (List (Option Char)) :=
  [[some 'A', some 'B'], [none, none]]

/-- C7 witness cell-number matrix: what `numberCells` computes on
`c7Grid`. -/
def c7Nums : List (List Nat) := [[1, 0], [0, 0]]

/-- Witness for C7 at the concrete grid, cell `(0, 0)`. -/
theorem c7_cell_numbering_witness :
    readCell c7Nums 0 0 = some (
      if startsEntrySpec c7Grid 2 0 0 then
        ((readingOrder 2).takeWhile (fun r => r != ((0 : Nat), (0 : Nat)))).countP
          (fun r => startsEntrySpec c7Grid 2 r.1 r.2) + 1
      else 0) :=
  c7_cell_numbering c7Grid 2 c7Nums 0 0 ⟨by decide, by decide⟩
    (by decide) (by decide) (by decide)

/-! ### Formula-extension lemmas for the remaining encoder phases

Every encoder operation is built from `encNewVar` (which leaves the
clause buffer unchanged) and `encAddClause` (which appends), so each
phase only extends the formula; these lemmas make that usable. -/

theorem formulaExt_add1 {f : Formula} (st : Enc) (c : Clause)
    (h : FormulaExt f st.formula) :
    FormulaExt f (encAddClause st c).formula :=
  formulaExt_trans h (formulaExt_addClause st c)

theorem foldl_pres {σ β : Type} (P : σ → Prop) (f : σ → β → σ) (l : List β)
    (init : σ) (h0 : P init) (hstep : ∀ s b, b ∈ l → P s → P (f s b)) :
    P (l.foldl f init) := by
  induction l generalizing init with
  | nil => exact h0
  | cons b rest ih =>
    rw [List.foldl_cons]
    exact ih (f init b) (hstep init b (by simp) h0)
      (fun s b2 hb2 hs => hstep s b2 (by simp [hb2]) hs)

theorem foldl_proj_eq {σ β γ : Type} (pr : σ → γ) (f : σ → β → σ)
    (l : List β) (init : σ) (h : ∀ s b, b ∈ l → pr (f s b) = pr s) :
    pr (l.foldl f init) = pr init := by
  induction l generalizing init with
  | nil => rfl
  | cons b rest ih =>
    rw [List.foldl_cons, ih (f init b)
      (fun s b2 hb2 => h s b2 (by simp [hb2])), h init b (by simp)]

theorem alkEntry_ext (prevRow : List (Option Nat)) (x i : Nat)
    (q : Enc × List (Option Nat)) (t : Nat) :
    FormulaExt q.1.formula (alkEntry prevRow x i q t).1.formula := by
  obtain ⟨st, row⟩ := q
  simp only [alkEntry, encNewVar]
  split
  · exact formulaExt_add1 _ _ (formulaExt_refl _)
  · split
    · split
      · exact formulaExt_add1 _ _ (formulaExt_add1 _ _ (formulaExt_add1 _ _
          (formulaExt_add1 _ _ (formulaExt_refl _))))
      · exact formulaExt_add1 _ _ (formulaExt_add1 _ _ (formulaExt_refl _))
      · exact formulaExt_refl _
    · split
      · split
        · exact formulaExt_add1 _ _ (formulaExt_add1 _ _
            (formulaExt_add1 _ _ (formulaExt_refl _)))
        · exact formulaExt_refl _
      · exact formulaExt_refl _

theorem alkRow_ext (st : Enc) (aux : List (List (Option Nat)))
    (x i k : Nat) :
    FormulaExt st.formula (alkRow st aux x i k).1.formula := by
  rw [alkRow]
  exact foldl_ext_proj (fun q => q.1.formula) _ _
    (st, List.replicate (k + 1) (none : Option Nat))
    (fun s b _ => alkEntry_ext _ x i s b)

theorem alkLoop_ext (st : Enc) (vars : List Nat) (k : Nat)
    (row0 : List (Option Nat)) :
    FormulaExt st.formula (alkLoop st vars k row0).1.formula := by
  rw [alkLoop]
  exact foldl_ext_proj (fun q => q.1.formula)
    (fun acc i0 =>
      let i := i0 + 1
      let x := vars.getD (i - 1) 0
      let r := alkRow acc.1 acc.2 x i k
      (r.1, acc.2 ++ [r.2]))
    (List.range vars.length) (st, [row0])
    (fun s b _ => alkRow_ext s.1 s.2 (vars.getD (b + 1 - 1) 0) (b + 1) k)

theorem atLeastK_ext (st : Enc) (vars : List Nat) (k : Nat) :
    FormulaExt st.formula (atLeastK st vars k).formula := by
  by_cases h1 : k = 0 ∨ vars.length < k
  · simp only [atLeastK, if_pos h1]
    exact formulaExt_refl _
  · by_cases h2 : k = 1
    · simp only [atLeastK, if_neg h1, if_pos h2]
      exact formulaExt_addClause _ _
    · simp only [atLeastK, if_neg h1, if_neg h2]
      split
      · exact formulaExt_add1 _ _ (formulaExt_trans
          (formulaExt_add1 _ _ (formulaExt_refl _)) (alkLoop_ext _ vars k _))
      · exact formulaExt_trans
          (formulaExt_add1 _ _ (formulaExt_refl _)) (alkLoop_ext _ vars k _)

theorem atMostOne_ext (st : Enc) (vars : List Nat) :
    FormulaExt st.formula (atMostOne st vars).formula := by
  induction vars generalizing st with
  | nil =>
    rw [atMostOne]
    exact formulaExt_refl _
  | cons v rest ih =>
    rw [atMostOne]
    exact formulaExt_trans
      (foldl_ext_proj (fun e => e.formula) _ rest st
        (fun s b _ => formulaExt_addClause s _))
      (ih _)

/-- The encoder state after the sequence-validation phase (phases 1-8 of
`encode`), named so theorems can split off the last phases. -/
def encBase (words : List String) (size : Nat) : CW :=
  addSequenceAll (addBidirectional (addOrientationConstraints
    (addAllPlacements (amoCells (createGridVars (cwNew size) size
      (encodeChars words)) size (encodeChars words)) words size
      (encodeChars words))) size (encodeChars words)) size
    (encodeChars words)

/-- The connectivity phase applied to the base state. -/
def encConn (words : List String) (size : Nat) : CW × ConnTables :=
  addConnectivityConstraint (encBase words size) size (encodeChars words)

/-- The final encoder state of `encode`: the density and quality phases
applied on top of the connectivity phase. -/
def encFinal (words : List String) (size minQuality : Nat) : CW :=
  { (encConn words size).1 with
      enc := addQualityConstraint
        (addDensityConstraint (encConn words size).1.enc
          (encConn words size).2.isFilled size)
        (encConn words size).1.placementVars minQuality }

theorem encode_eq (words : List String) (size minQuality : Nat) :
    encode words size minQuality =
      (encFinal words size minQuality, (encConn words size).2.isFilled) :=
  rfl

/-- Claim C3 (amended): the quality constraint `encode` adds over the
placement variables is an at-least-k constraint with threshold
`max(⌊min_quality/10⌋, 6)` — not `⌊min_quality/10⌋` — so with
`min_quality = K_quality` the effective threshold is
`max(⌊K_quality/10⌋, 6)`.  Semantically: whenever `min_quality > 0` and
the threshold does not exceed the number of placement variables (the
sequential counter emits nothing otherwise), every assignment satisfying
the emitted formula makes at least that many placement variables true. -/
theorem c3_quality_threshold (words : List String) (size minQuality : Nat)
    (hq0 : 0 < minQuality)
    (hkn : minWordsThreshold minQuality ≤
      ((encode words size minQuality).1).placementVars.length) :
    ∀ a, satFormula a ((encode words size minQuality).1).enc.formula = true →
      minWordsThreshold minQuality ≤ countTrue a
        (((encode words size minQuality).1).placementVars.map
          (fun e => e.2)) := by
  intro a hsat
  have hkn2 : minWordsThreshold minQuality ≤
      (encConn words size).1.placementVars.length := hkn
  have hsat2 : satFormula a (addQualityConstraint
      (addDensityConstraint (encConn words size).1.enc
        (encConn words size).2.isFilled size)
      (encConn words size).1.placementVars minQuality).formula = true := hsat
  have hne : ((encConn words size).1.placementVars.map
      (fun e => e.2)).isEmpty = false := by
    cases hpv : (encConn words size).1.placementVars with
    | nil =>
      rw [hpv] at hkn2
      have h6 : 6 ≤ minWordsThreshold minQuality := le_max_right _ 6
      simp at hkn2
      omega
    | cons e rest => simp [hpv]
  rw [addQualityConstraint, if_pos hq0] at hsat2
  simp only [hne, Bool.false_eq_true, if_false] at hsat2
  show minWordsThreshold minQuality ≤ countTrue a
    ((encConn words size).1.placementVars.map (fun e => e.2))
  exact atLeastK_sound_gen _ _ _ a
    (le_trans (by omega) (le_max_right (minQuality / 10) 6))
    (by simpa using hkn2) hsat2

/-- C3 witness word list. -/
def c3Words : List String := ["AB"]

/-- Witness for C3 at a concrete encoder input: one word on a 3×3 grid
with `min_quality = 20` (so the threshold is `max(2, 6) = 6` and twelve
placement variables exist). -/
theorem c3_quality_threshold_witness :
    0 < 20 ∧
    minWordsThreshold 20 ≤ ((encode c3Words 3 20).1).placementVars.length ∧
    (∀ a, satFormula a ((encode c3Words 3 20).1).enc.formula = true →
      minWordsThreshold 20 ≤ countTrue a
        (((encode c3Words 3 20).1).placementVars.map (fun e => e.2))) :=
  ⟨by decide, by decide, c3_quality_threshold c3Words 3 20 (by decide)
    (by decide)⟩

set_option maxRecDepth 100000 in
/-- Claim C5 counterexample: on a 3×3 grid the claimed threshold is
`max(15, ⌊9/2⌋) = 15`, which exceeds the number `9` of filled-cell
variables, so the sequential counter emits nothing (`at_least_k` returns
early when `k > n`): the all-false assignment satisfies every emitted
clause yet has `0 < 15` filled cells. -/
theorem c5_counterexample :
    max (3 * 3 * 5 / 10) 15 = 15 ∧
    ((encode ([] : List String) 3 20).2).flatten.length = 9 ∧
    satFormula (fun _ => false)
      ((encode ([] : List String) 3 20).1).enc.formula = true ∧
    countTrue (fun _ => false)
      ((encode ([] : List String) 3 20).2).flatten = 0 :=
  ⟨by decide, by decide, by decide, by decide⟩

theorem addQualityConstraint_ext (enc : Enc)
    (pv : List ((String × Nat × Nat × Bool) × Nat)) (minQuality : Nat) :
    FormulaExt enc.formula (addQualityConstraint enc pv minQuality).formula := by
  simp only [addQualityConstraint]
  split
  · split
    · exact formulaExt_refl _
    · exact atLeastK_ext _ _ _
  · exact formulaExt_refl _

/-- Claim C5 (amended): `encode` adds the sequential-counter at-least-k
constraint over the `N²` filled-cell variables with threshold
`max(15, ⌊N²/2⌋)` only when that threshold does not exceed the number of
filled-cell variables (the counter emits nothing when `k > n`, leaving
the filled-cell count unconstrained, as the counterexample shows).  Under
that proviso every satisfying assignment of the emitted formula makes at
least `max(15, ⌊N²/2⌋)` filled-cell variables true. -/
theorem c5_density_at_least (words : List String) (size minQuality : Nat)
    (hkn : max (size * size * 5 / 10) 15 ≤
      ((encode words size minQuality).2).flatten.length) :
    ∀ a, satFormula a ((encode words size minQuality).1).enc.formula = true →
      max (size * size * 5 / 10) 15 ≤
        countTrue a ((encode words size minQuality).2).flatten := by
  intro a hsat
  have hkn2 : max (size * size * 5 / 10) 15 ≤
      (encConn words size).2.isFilled.flatten.length := hkn
  have hsat2 : satFormula a (addQualityConstraint
      (addDensityConstraint (encConn words size).1.enc
        (encConn words size).2.isFilled size)
      (encConn words size).1.placementVars minQuality).formula = true := hsat
  have hsat3 : satFormula a (addDensityConstraint (encConn words size).1.enc
      (encConn words size).2.isFilled size).formula = true :=
    satFormula_mono (addQualityConstraint_ext _ _ _) hsat2
  have hne : ((encConn words size).2.isFilled.flatten).isEmpty = false := by
    cases hf : (encConn words size).2.isFilled.flatten with
    | nil =>
      rw [hf] at hkn2
      simp at hkn2
    | cons v rest => simp [hf]
  simp only [addDensityConstraint, hne, Bool.false_eq_true, if_false]
    at hsat3
  show max (size * size * 5 / 10) 15 ≤
    countTrue a ((encConn words size).2.isFilled.flatten)
  exact atLeastK_sound_gen _ _ _ a
    (le_trans (by omega) (le_max_right (size * size * 5 / 10) 15))
    hkn2 hsat3

set_option maxRecDepth 100000 in
/-- Witness for C5 at a concrete encoder input: an empty word list on a
6×6 grid, where the threshold `max(18, 15) = 18` does not exceed the
`36` filled-cell variables. -/
theorem c5_density_at_least_witness :
    max (6 * 6 * 5 / 10) 15 ≤
      ((encode ([] : List String) 6 0).2).flatten.length ∧
    (∀ a, satFormula a ((encode ([] : List String) 6 0).1).enc.formula =
        true →
      max (6 * 6 * 5 / 10) 15 ≤
        countTrue a ((encode ([] : List String) 6 0).2).flatten) :=
  ⟨by decide, c5_density_at_least ([] : List String) 6 0 (by decide)⟩

/-! ### C4: boundary-empty clauses of the placement phase

`add_word_placements` guards each placement with clauses forbidding a
letter in the cell just before the start and just after the end (when
in-grid).  The invariant `BoundaryOk` states those clauses are present
for every recorded placement variable; it is established by the
placement phase and preserved by every later phase. -/

theorem optClauseFold_ext {β : Type} (sel : β → Option Nat)
    (mk : β → Nat → Clause) (l : List β) (e : Enc) :
    FormulaExt e.formula (l.foldl (fun st b =>
      match sel b with
      | some g => encAddClause st (mk b g)
      | none => st) e).formula :=
  foldl_ext_proj (fun e2 => e2.formula) _ l e (fun s b _ => by
    cases h : sel b with
    | some g => exact formulaExt_addClause _ _
    | none => exact formulaExt_refl _)

theorem optClauseFold_mem {β : Type} (sel : β → Option Nat)
    (mk : β → Nat → Clause) (l : List β) (e : Enc) {b : β} (hb : b ∈ l)
    {g : Nat} (hsel : sel b = some g) :
    mk b g ∈ (l.foldl (fun st b2 =>
      match sel b2 with
      | some g2 => encAddClause st (mk b2 g2)
      | none => st) e).formula :=
  foldl_mem_proj (fun e2 => e2.formula) _ l e
    (fun s b2 _ => by
      cases h : sel b2 with
      | some g2 => exact formulaExt_addClause _ _
      | none => exact formulaExt_refl _)
    hb
    (fun s => by
      show mk b g ∈ (match sel b with
        | some g2 => encAddClause s (mk b g2)
        | none => s).formula
      rw [hsel]
      simp [encAddClause])

/-- The boundary-clause invariant: for every recorded placement variable
and every candidate letter, the two boundary-empty clauses (for boundary
cells that lie inside the grid) are in the clause buffer. -/
def BoundaryOk (size : Nat) (chars : List Char) (cw : CW) : Prop :=
  ∀ w px py dir pvar,
    ((w, px, py, dir), pvar) ∈ cw.placementVars → ∀ ch ∈ chars,
    (dir = true →
      (0 < px → ∀ g, cw.gridVars.lookup (px - 1, py, ch) = some g →
        [litNeg pvar, litNeg g] ∈ cw.enc.formula) ∧
      (px + w.length < size → ∀ g,
        cw.gridVars.lookup (px + w.length, py, ch) = some g →
        [litNeg pvar, litNeg g] ∈ cw.enc.formula)) ∧
    (dir = false →
      (0 < py → ∀ g, cw.gridVars.lookup (px, py - 1, ch) = some g →
        [litNeg pvar, litNeg g] ∈ cw.enc.formula) ∧
      (py + w.length < size → ∀ g,
        cw.gridVars.lookup (px, py + w.length, ch) = some g →
        [litNeg pvar, litNeg g] ∈ cw.enc.formula))

theorem boundaryOk_mono {size : Nat} {chars : List Char} {cw cw2 : CW}
    (h : BoundaryOk size chars cw)
    (hpv : cw2.placementVars = cw.placementVars)
    (hgv : cw2.gridVars = cw.gridVars)
    (hext : FormulaExt cw.enc.formula cw2.enc.formula) :
    BoundaryOk size chars cw2 := by
  intro w px py dir pvar hmem ch hch
  rw [hpv] at hmem
  obtain ⟨h1, h2⟩ := h w px py dir pvar hmem ch hch
  refine ⟨?_, ?_⟩
  · intro hdir
    obtain ⟨h1a, h1b⟩ := h1 hdir
    exact ⟨fun hpx g hg => mem_of_formulaExt hext
        (h1a hpx g (by rw [hgv] at hg; exact hg)),
      fun hpx g hg => mem_of_formulaExt hext
        (h1b hpx g (by rw [hgv] at hg; exact hg))⟩
  · intro hdir
    obtain ⟨h2a, h2b⟩ := h2 hdir
    exact ⟨fun hpy g hg => mem_of_formulaExt hext
        (h2a hpy g (by rw [hgv] at hg; exact hg)),
      fun hpy g hg => mem_of_formulaExt hext
        (h2b hpy g (by rw [hgv] at hg; exact hg))⟩

theorem condFold_ext {β : Type} (c : Prop) [Decidable c]
    (sel : β → Option Nat) (mk : β → Nat → Clause) (l : List β) (e : Enc) :
    FormulaExt e.formula
      (if c then l.foldl (fun st b =>
        match sel b with
        | some g => encAddClause st (mk b g)
        | none => st) e else e).formula := by
  split
  · exact optClauseFold_ext sel mk l e
  · exact formulaExt_refl _

theorem addHorizPlacement_spec (cw : CW) (word : String) (x y size : Nat)
    (chars : List Char) (allP : List Nat) :
    (addHorizPlacement cw word x y size chars allP).1.gridVars =
      cw.gridVars ∧
    (addHorizPlacement cw word x y size chars allP).1.placementVars =
      cw.placementVars ++ [((word, x, y, true), cw.enc.varCounter)] ∧
    FormulaExt cw.enc.formula
      (addHorizPlacement cw word x y size chars allP).1.enc.formula ∧
    (∀ ch ∈ chars,
      (0 < x → ∀ g, cw.gridVars.lookup (x - 1, y, ch) = some g →
        [litNeg cw.enc.varCounter, litNeg g] ∈
          (addHorizPlacement cw word x y size chars allP).1.enc.formula) ∧
      (x + word.length < size → ∀ g,
        cw.gridVars.lookup (x + word.length, y, ch) = some g →
        [litNeg cw.enc.varCounter, litNeg g] ∈
          (addHorizPlacement cw word x y size chars allP).1.enc.formula)) := by
  simp only [addHorizPlacement, encNewVar]
  refine ⟨trivial, trivial, ?_, ?_⟩
  · exact formulaExt_trans (formulaExt_trans
      (optClauseFold_ext (fun iw => cw.gridVars.lookup (x + iw.1, y, iw.2))
        (fun iw g => [litNeg cw.enc.varCounter, litPos g]) word.data.enum
        ⟨cw.enc.varCounter + 1, cw.enc.formula⟩)
      (condFold_ext (0 < x) (fun ch => cw.gridVars.lookup (x - 1, y, ch))
        (fun ch g => [litNeg cw.enc.varCounter, litNeg g]) chars _))
      (condFold_ext (x + word.length < size)
        (fun ch => cw.gridVars.lookup (x + word.length, y, ch))
        (fun ch g => [litNeg cw.enc.varCounter, litNeg g]) chars _)
  · intro ch hch
    constructor
    · intro hx0 g hg
      simp only [if_pos hx0]
      by_cases hxe : x + word.length < size
      · simp only [if_pos hxe]
        exact mem_of_formulaExt
          (optClauseFold_ext
            (fun ch2 => cw.gridVars.lookup (x + word.length, y, ch2))
            (fun ch2 g2 => [litNeg cw.enc.varCounter, litNeg g2]) chars _)
          (optClauseFold_mem
            (fun ch2 => cw.gridVars.lookup (x - 1, y, ch2))
            (fun ch2 g2 => [litNeg cw.enc.varCounter, litNeg g2]) chars _
            hch hg)
      · simp only [if_neg hxe]
        exact optClauseFold_mem
          (fun ch2 => cw.gridVars.lookup (x - 1, y, ch2))
          (fun ch2 g2 => [litNeg cw.enc.varCounter, litNeg g2]) chars _
          hch hg
    · intro hxe g hg
      simp only [if_pos hxe]
      exact optClauseFold_mem
        (fun ch2 => cw.gridVars.lookup (x + word.length, y, ch2))
        (fun ch2 g2 => [litNeg cw.enc.varCounter, litNeg g2]) chars _
        hch hg

theorem addVertPlacement_spec (cw : CW) (word : String) (x y size : Nat)
    (chars : List Char) (allP : List Nat) :
    (addVertPlacement cw word x y size chars allP).1.gridVars =
      cw.gridVars ∧
    (addVertPlacement cw word x y size chars allP).1.placementVars =
      cw.placementVars ++ [((word, x, y, false), cw.enc.varCounter)] ∧
    FormulaExt cw.enc.formula
      (addVertPlacement cw word x y size chars allP).1.enc.formula ∧
    (∀ ch ∈ chars,
      (0 < y → ∀ g, cw.gridVars.lookup (x, y - 1, ch) = some g →
        [litNeg cw.enc.varCounter, litNeg g] ∈
          (addVertPlacement cw word x y size chars allP).1.enc.formula) ∧
      (y + word.length < size → ∀ g,
        cw.gridVars.lookup (x, y + word.length, ch) = some g →
        [litNeg cw.enc.varCounter, litNeg g] ∈
          (addVertPlacement cw word x y size chars allP).1.enc.formula)) := by
  simp only [addVertPlacement, encNewVar]
  refine ⟨trivial, trivial, ?_, ?_⟩
  · exact formulaExt_trans (formulaExt_trans
      (optClauseFold_ext (fun iw => cw.gridVars.lookup (x, y + iw.1, iw.2))
        (fun iw g => [litNeg cw.enc.varCounter, litPos g]) word.data.enum
        ⟨cw.enc.varCounter + 1, cw.enc.formula⟩)
      (condFold_ext (0 < y) (fun ch => cw.gridVars.lookup (x, y - 1, ch))
        (fun ch g => [litNeg cw.enc.varCounter, litNeg g]) chars _))
      (condFold_ext (y + word.length < size)
        (fun ch => cw.gridVars.lookup (x, y + word.length, ch))
        (fun ch g => [litNeg cw.enc.varCounter, litNeg g]) chars _)
  · intro ch hch
    constructor
    · intro hy0 g hg
      simp only [if_pos hy0]
      by_cases hye : y + word.length < size
      · simp only [if_pos hye]
        exact mem_of_formulaExt
          (optClauseFold_ext
            (fun ch2 => cw.gridVars.lookup (x, y + word.length, ch2))
            (fun ch2 g2 => [litNeg cw.enc.varCounter, litNeg g2]) chars _)
          (optClauseFold_mem
            (fun ch2 => cw.gridVars.lookup (x, y - 1, ch2))
            (fun ch2 g2 => [litNeg cw.enc.varCounter, litNeg g2]) chars _
            hch hg)
      · simp only [if_neg hye]
        exact optClauseFold_mem
          (fun ch2 => cw.gridVars.lookup (x, y - 1, ch2))
          (fun ch2 g2 => [litNeg cw.enc.varCounter, litNeg g2]) chars _
          hch hg
    · intro hye g hg
      simp only [if_pos hye]
      exact optClauseFold_mem
        (fun ch2 => cw.gridVars.lookup (x, y + word.length, ch2))
        (fun ch2 g2 => [litNeg cw.enc.varCounter, litNeg g2]) chars _
        hch hg

theorem addHorizPlacement_boundary {size : Nat} {chars : List Char}
    {cw : CW} (word : String) (x y : Nat) (allP : List Nat)
    (h : BoundaryOk size chars cw) :
    BoundaryOk size chars
      (addHorizPlacement cw word x y size chars allP).1 := by
  obtain ⟨hgv, hpv, hext, hnew⟩ :=
    addHorizPlacement_spec cw word x y size chars allP
  intro w px py dir pvar hmem ch hch
  rw [hpv] at hmem
  rcases List.mem_append.mp hmem with hold | hnw
  · obtain ⟨h1, h2⟩ := h w px py dir pvar hold ch hch
    refine ⟨?_, ?_⟩
    · intro hdir
      obtain ⟨h1a, h1b⟩ := h1 hdir
      exact ⟨fun hpx g hg => mem_of_formulaExt hext
          (h1a hpx g (by rw [hgv] at hg; exact hg)),
        fun hpx g hg => mem_of_formulaExt hext
          (h1b hpx g (by rw [hgv] at hg; exact hg))⟩
    · intro hdir
      obtain ⟨h2a, h2b⟩ := h2 hdir
      exact ⟨fun hpy g hg => mem_of_formulaExt hext
          (h2a hpy g (by rw [hgv] at hg; exact hg)),
        fun hpy g hg => mem_of_formulaExt hext
          (h2b hpy g (by rw [hgv] at hg; exact hg))⟩
  · simp only [List.mem_singleton, Prod.mk.injEq] at hnw
    obtain ⟨⟨hw, hx, hy, hdir⟩, hpvar⟩ := hnw
    subst hw hx hy hpvar
    obtain ⟨hn1, hn2⟩ := hnew ch hch
    refine ⟨fun _ => ?_, fun hfalse => ?_⟩
    · exact ⟨fun hpx g hg => hn1 hpx g (by rw [hgv] at hg; exact hg),
        fun hpx g hg => hn2 hpx g (by rw [hgv] at hg; exact hg)⟩
    · rw [hfalse] at hdir
      cases hdir

theorem addVertPlacement_boundary {size : Nat} {chars : List Char}
    {cw : CW} (word : String) (x y : Nat) (allP : List Nat)
    (h : BoundaryOk size chars cw) :
    BoundaryOk size chars
      (addVertPlacement cw word x y size chars allP).1 := by
  obtain ⟨hgv, hpv, hext, hnew⟩ :=
    addVertPlacement_spec cw word x y size chars allP
  intro w px py dir pvar hmem ch hch
  rw [hpv] at hmem
  rcases List.mem_append.mp hmem with hold | hnw
  · obtain ⟨h1, h2⟩ := h w px py dir pvar hold ch hch
    refine ⟨?_, ?_⟩
    · intro hdir
      obtain ⟨h1a, h1b⟩ := h1 hdir
      exact ⟨fun hpx g hg => mem_of_formulaExt hext
          (h1a hpx g (by rw [hgv] at hg; exact hg)),
        fun hpx g hg => mem_of_formulaExt hext
          (h1b hpx g (by rw [hgv] at hg; exact hg))⟩
    · intro hdir
      obtain ⟨h2a, h2b⟩ := h2 hdir
      exact ⟨fun hpy g hg => mem_of_formulaExt hext
          (h2a hpy g (by rw [hgv] at hg; exact hg)),
        fun hpy g hg => mem_of_formulaExt hext
          (h2b hpy g (by rw [hgv] at hg; exact hg))⟩
  · simp only [List.mem_singleton, Prod.mk.injEq] at hnw
    obtain ⟨⟨hw, hx, hy, hdir⟩, hpvar⟩ := hnw
    subst hw hx hy hpvar
    obtain ⟨hn1, hn2⟩ := hnew ch hch
    refine ⟨fun htrue => ?_, fun _ => ?_⟩
    · rw [htrue] at hdir
      cases hdir
    · exact ⟨fun hpy g hg => hn1 hpy g (by rw [hgv] at hg; exact hg),
        fun hpy g hg => hn2 hpy g (by rw [hgv] at hg; exact hg)⟩

theorem addWordPlacements_boundary {size : Nat} {chars : List Char}
    {cw : CW} (word : String)
    (h : BoundaryOk size chars cw) :
    BoundaryOk size chars (addWordPlacements cw word size chars) := by
  simp only [addWordPlacements]
  refine boundaryOk_mono
    (foldl_pres (fun acc : CW × List Nat => BoundaryOk size chars acc.1)
      _ _ (cw, ([] : List Nat)) h ?_) rfl rfl (atMostOne_ext _ _)
  intro s y _ hs
  refine foldl_pres (fun acc : CW × List Nat => BoundaryOk size chars acc.1)
    _ _ s hs ?_
  intro s2 x _ hs2
  by_cases hc1 : x + word.length ≤ size
  · by_cases hc2 : y + word.length ≤ size
    · simp only [if_pos hc1, if_pos hc2]
      exact addVertPlacement_boundary word x y _
        (addHorizPlacement_boundary word x y _ hs2)
    · simp only [if_pos hc1, if_neg hc2]
      exact addHorizPlacement_boundary word x y _ hs2
  · by_cases hc2 : y + word.length ≤ size
    · simp only [if_neg hc1, if_pos hc2]
      exact addVertPlacement_boundary word x y _ hs2
    · simp only [if_neg hc1, if_neg hc2]
      exact hs2

theorem addAllPlacements_boundary {size : Nat} {chars : List Char}
    {cw : CW} (words : List String)
    (h : BoundaryOk size chars cw) :
    BoundaryOk size chars (addAllPlacements cw words size chars) := by
  rw [addAllPlacements]
  exact foldl_pres (BoundaryOk size chars) _ words cw h
    (fun s w _ hs => addWordPlacements_boundary w hs)

theorem createGridVars_placementVars (cw : CW) (size : Nat)
    (chars : List Char) :
    (createGridVars cw size chars).placementVars = cw.placementVars := by
  rw [createGridVars]
  refine foldl_proj_eq (fun c => c.placementVars) _ _ cw ?_
  intro s b _
  refine foldl_proj_eq (fun c => c.placementVars) _ _ s ?_
  intro s2 b2 _
  refine foldl_proj_eq (fun c => c.placementVars) _ _ s2 ?_
  intro s3 b3 _
  rfl

theorem amoCells_placementVars (cw : CW) (size : Nat) (chars : List Char) :
    (amoCells cw size chars).placementVars = cw.placementVars := by
  rw [amoCells]
  refine foldl_proj_eq (fun c => c.placementVars) _ _ cw ?_
  intro s b _
  refine foldl_proj_eq (fun c => c.placementVars) _ _ s ?_
  intro s2 b2 _
  rfl

theorem startState_boundary (size : Nat) (chars : List Char)
    (words : List String) :
    BoundaryOk size chars (addAllPlacements (amoCells
      (createGridVars (cwNew size) size chars) size chars)
      words size chars) := by
  refine addAllPlacements_boundary words ?_
  intro w px py dir pvar hmem ch hch
  rw [amoCells_placementVars, createGridVars_placementVars] at hmem
  cases hmem

theorem condExt1 (c : Prop) [Decidable c] (e : Enc) (cl : Clause) :
    FormulaExt e.formula (if c then e else encAddClause e cl).formula := by
  split
  · exact formulaExt_refl _
  · exact formulaExt_addClause _ _

theorem condExt2 (c : Prop) [Decidable c] (e : Enc) (vars : List Nat)
    (k : Nat) :
    FormulaExt e.formula (if c then atLeastK e vars k else e).formula := by
  split
  · exact atLeastK_ext _ _ _
  · exact formulaExt_refl _

theorem addOrientationConstraints_boundary {size : Nat} {chars : List Char}
    {cw : CW} (h : BoundaryOk size chars cw) :
    BoundaryOk size chars (addOrientationConstraints cw) := by
  refine boundaryOk_mono h rfl rfl ?_
  simp only [addOrientationConstraints]
  exact formulaExt_trans (formulaExt_trans (formulaExt_trans
    (condExt1 _ _ _) (condExt1 _ _ _)) (condExt2 _ _ _ _))
    (condExt2 _ _ _ _)

theorem addBidirectional_boundary {size2 : Nat} {chars2 : List Char}
    {cw : CW} (size : Nat) (chars : List Char)
    (h : BoundaryOk size2 chars2 cw) :
    BoundaryOk size2 chars2 (addBidirectional cw size chars) := by
  rw [addBidirectional]
  refine foldl_pres (BoundaryOk size2 chars2) _ _ cw h ?_
  intro s y _ hs
  refine foldl_pres (BoundaryOk size2 chars2) _ _ s hs ?_
  intro s2 x _ hs2
  refine foldl_pres (BoundaryOk size2 chars2) _ _ s2 hs2 ?_
  intro s3 ch _ hs3
  cases hlk : s3.gridVars.lookup (x, y, ch) with
  | none => exact hs3
  | some gvar =>
    dsimp only
    split
    · exact boundaryOk_mono hs3 rfl rfl (formulaExt_addClause _ _)
    · exact boundaryOk_mono hs3 rfl rfl (formulaExt_addClause _ _)

theorem addSequenceConstraint_boundary {size2 : Nat} {chars2 : List Char}
    {cw : CW} (x y : Nat) (horizontal : Bool) (chars : List Char)
    (placements : List Nat)
    (h : BoundaryOk size2 chars2 cw) :
    BoundaryOk size2 chars2
      (addSequenceConstraint cw x y horizontal chars placements) := by
  rw [addSequenceConstraint]
  refine foldl_pres (BoundaryOk size2 chars2) _ _ cw h ?_
  intro s cc _ hs
  refine foldl_pres (BoundaryOk size2 chars2) _ _ s hs ?_
  intro s2 nc _ hs2
  exact boundaryOk_mono hs2 rfl rfl (formulaExt_addClause _ _)

theorem addSequenceAll_boundary {size2 : Nat} {chars2 : List Char}
    {cw : CW} (size : Nat) (chars : List Char)
    (h : BoundaryOk size2 chars2 cw) :
    BoundaryOk size2 chars2 (addSequenceAll cw size chars) := by
  rw [addSequenceAll]
  refine foldl_pres (BoundaryOk size2 chars2) _ _ cw h ?_
  intro s y _ hs
  refine foldl_pres (BoundaryOk size2 chars2) _ _ s hs ?_
  intro s2 x _ hs2
  by_cases hc1 : x + 1 < size
  · by_cases hc2 : y + 1 < size
    · simp only [if_pos hc1, if_pos hc2]
      exact addSequenceConstraint_boundary _ _ _ _ _
        (addSequenceConstraint_boundary _ _ _ _ _ hs2)
    · simp only [if_pos hc1, if_neg hc2]
      exact addSequenceConstraint_boundary _ _ _ _ _ hs2
  · by_cases hc2 : y + 1 < size
    · simp only [if_neg hc1, if_pos hc2]
      exact addSequenceConstraint_boundary _ _ _ _ _ hs2
    · simp only [if_neg hc1, if_neg hc2]
      exact hs2

theorem allocFold1_ext (e : Enc) (n : Nat) (l0 : List Nat) :
    FormulaExt e.formula ((List.range n).foldl
      (fun (acc : Enc × List Nat) _ =>
        let p := encNewVar acc.1
        (p.1, acc.2 ++ [p.2])) (e, l0)).1.formula :=
  foldl_ext_proj (fun acc => acc.1.formula)
    (fun (acc : Enc × List Nat) _ =>
      let p := encNewVar acc.1
      (p.1, acc.2 ++ [p.2])) (List.range n) (e, l0)
    (fun s b _ => formulaExt_refl _)

theorem allocFold2_ext (e : Enc) (n m : Nat) (l0 : List (List Nat)) :
    FormulaExt e.formula ((List.range n).foldl
      (fun (acc : Enc × List (List Nat)) _ =>
        let row := (List.range m).foldl (fun (acc2 : Enc × List Nat) _ =>
          let p := encNewVar acc2.1
          (p.1, acc2.2 ++ [p.2])) (acc.1, [])
        (row.1, acc.2 ++ [row.2])) (e, l0)).1.formula :=
  foldl_ext_proj (fun acc => acc.1.formula)
    (fun (acc : Enc × List (List Nat)) _ =>
      let row := (List.range m).foldl (fun (acc2 : Enc × List Nat) _ =>
        let p := encNewVar acc2.1
        (p.1, acc2.2 ++ [p.2])) (acc.1, [])
      (row.1, acc.2 ++ [row.2])) (List.range n) (e, l0)
    (fun s b _ => allocFold1_ext s.1 m [])

theorem allocFold3_ext (e : Enc) (n m d : Nat)
    (l0 : List (List (List Nat))) :
    FormulaExt e.formula ((List.range n).foldl
      (fun (acc : Enc × List (List (List Nat))) _ =>
        let row := (List.range m).foldl
          (fun (acc2 : Enc × List (List Nat)) _ =>
            let steps := (List.range d).foldl
              (fun (acc3 : Enc × List Nat) _ =>
                let p := encNewVar acc3.1
                (p.1, acc3.2 ++ [p.2])) (acc2.1, [])
            (steps.1, acc2.2 ++ [steps.2])) (acc.1, [])
        (row.1, acc.2 ++ [row.2])) (e, l0)).1.formula :=
  foldl_ext_proj (fun acc => acc.1.formula)
    (fun (acc : Enc × List (List (List Nat))) _ =>
      let row := (List.range m).foldl
        (fun (acc2 : Enc × List (List Nat)) _ =>
          let steps := (List.range d).foldl
            (fun (acc3 : Enc × List Nat) _ =>
              let p := encNewVar acc3.1
              (p.1, acc3.2 ++ [p.2])) (acc2.1, [])
          (steps.1, acc2.2 ++ [steps.2])) (acc.1, [])
      (row.1, acc.2 ++ [row.2])) (List.range n) (e, l0)
    (fun s b _ => allocFold2_ext s.1 m d [])

theorem allocFold4_ext (e : Enc) (n m : Nat)
    (gv : List ((Nat × Nat × Char) × Nat)) (chars : List Char)
    (l0 : List (List Nat)) :
    FormulaExt e.formula ((List.range n).foldl
      (fun (acc : Enc × List (List Nat)) y =>
        let row := (List.range m).foldl
          (fun (acc2 : Enc × List Nat) x =>
            let p := encNewVar acc2.1
            let filledVar := p.2
            let cellChars := chars.filterMap (fun ch =>
              gv.lookup (x, y, ch))
            let enc2 :=
              if cellChars.isEmpty then
                encAddClause p.1 [litNeg filledVar]
              else
                let e2 := encAddClause p.1
                  (litNeg filledVar :: cellChars.map litPos)
                cellChars.foldl (fun e3 cv =>
                  encAddClause e3 [litNeg cv, litPos filledVar]) e2
            (enc2, acc2.2 ++ [filledVar])) (acc.1, [])
        (row.1, acc.2 ++ [row.2])) (e, l0)).1.formula := by
  refine foldl_ext_proj (fun acc => acc.1.formula) _ (List.range n)
    (e, l0) ?_
  intro s y _
  dsimp only
  refine foldl_ext_proj (fun acc : Enc × List Nat => acc.1.formula) _
    (List.range m) (s.1, ([] : List Nat)) ?_
  intro s2 x _
  dsimp only
  split
  · exact formulaExt_add1 _ _ (formulaExt_refl _)
  · refine formulaExt_trans (formulaExt_add1 _ _ (formulaExt_refl _))
      (foldl_ext_proj Enc.formula _ _ _ ?_)
    intro s3 b3 _
    exact formulaExt_addClause _ _

theorem connAlloc_ext (cw : CW) (size : Nat) (chars : List Char) :
    FormulaExt cw.enc.formula (connAlloc cw size chars).1.formula := by
  simp only [connAlloc]
  exact formulaExt_trans (formulaExt_trans (formulaExt_trans
    (allocFold1_ext cw.enc size [])
    (allocFold2_ext _ size size []))
    (allocFold3_ext _ size size _ []))
    (allocFold4_ext _ size size cw.gridVars chars [])

theorem addConnectivityConstraint_boundary {size2 : Nat}
    {chars2 : List Char} {cw : CW} (size : Nat) (chars : List Char)
    (h : BoundaryOk size2 chars2 cw) :
    BoundaryOk size2 chars2
      (addConnectivityConstraint cw size chars).1 := by
  refine boundaryOk_mono h rfl rfl ?_
  simp only [addConnectivityConstraint]
  refine formulaExt_trans (connAlloc_ext cw size chars)
    (foldl_ext_proj Enc.formula _ (List.range size) _ ?_)
  intro s b _
  exact connRowClauses_ext size _ _ _ _ _ s b

theorem addDensityConstraint_ext (enc : Enc) (isFilled : List (List Nat))
    (size : Nat) :
    FormulaExt enc.formula
      (addDensityConstraint enc isFilled size).formula := by
  simp only [addDensityConstraint]
  split
  · exact formulaExt_refl _
  · exact atLeastK_ext _ _ _

theorem encode_boundaryOk (words : List String) (size minQuality : Nat) :
    BoundaryOk size (encodeChars words) (encode words size minQuality).1 := by
  rw [encode_eq]
  show BoundaryOk size (encodeChars words) (encFinal words size minQuality)
  have h5 : BoundaryOk size (encodeChars words) (encConn words size).1 :=
    addConnectivityConstraint_boundary size (encodeChars words)
      (addSequenceAll_boundary size (encodeChars words)
        (addBidirectional_boundary size (encodeChars words)
          (addOrientationConstraints_boundary
            (startState_boundary size (encodeChars words) words))))
  exact boundaryOk_mono h5 rfl rfl
    (formulaExt_trans (addDensityConstraint_ext _ _ _)
      (addQualityConstraint_ext _ _ _))

/-- Claim C4: for every placement variable `p = p(w,x,y,dir)` recorded by
`encode` and every letter `ch` of the candidate alphabet, if the cell
immediately before the placement's start or immediately after its end
lies inside the grid, the formula contains the clause
`p → ¬g(boundary_cell, ch)` (for the grid variable `g` of that cell and
letter), so every satisfying assignment with `p` true leaves the in-grid
boundary cells without that letter. -/
theorem c4_boundary_empty (words : List String) (size minQuality : Nat)
    (w : String) (px py : Nat) (dir : Bool) (pvar : Nat) (ch : Char)
    (hmem : ((w, px, py, dir), pvar) ∈
      ((encode words size minQuality).1).placementVars)
    (hch : ch ∈ encodeChars words) :
    (dir = true →
      (0 < px → ∀ g, ((encode words size minQuality).1).gridVars.lookup
          (px - 1, py, ch) = some g →
        [litNeg pvar, litNeg g] ∈
          ((encode words size minQuality).1).enc.formula ∧
        (∀ a, satFormula a
            ((encode words size minQuality).1).enc.formula = true →
          a pvar = true → a g = false)) ∧
      (px + w.length < size → ∀ g,
        ((encode words size minQuality).1).gridVars.lookup
          (px + w.length, py, ch) = some g →
        [litNeg pvar, litNeg g] ∈
          ((encode words size minQuality).1).enc.formula ∧
        (∀ a, satFormula a
            ((encode words size minQuality).1).enc.formula = true →
          a pvar = true → a g = false))) ∧
    (dir = false →
      (0 < py → ∀ g, ((encode words size minQuality).1).gridVars.lookup
          (px, py - 1, ch) = some g →
        [litNeg pvar, litNeg g] ∈
          ((encode words size minQuality).1).enc.formula ∧
        (∀ a, satFormula a
            ((encode words size minQuality).1).enc.formula = true →
          a pvar = true → a g = false)) ∧
      (py + w.length < size → ∀ g,
        ((encode words size minQuality).1).gridVars.lookup
          (px, py + w.length, ch) = some g →
        [litNeg pvar, litNeg g] ∈
          ((encode words size minQuality).1).enc.formula ∧
        (∀ a, satFormula a
            ((encode words size minQuality).1).enc.formula = true →
          a pvar = true → a g = false))) := by
  obtain ⟨h1, h2⟩ :=
    encode_boundaryOk words size minQuality w px py dir pvar hmem ch hch
  have hsem : ∀ g, [litNeg pvar, litNeg g] ∈
      ((encode words size minQuality).1).enc.formula →
      ∀ a, satFormula a
        ((encode words size minQuality).1).enc.formula = true →
      a pvar = true → a g = false := by
    intro g hmemc a hsat hap
    have hc : satClause a [(pvar, false), (g, false)] = true :=
      satClause_of_mem hmemc hsat
    rcases satClause_two.mp hc with hfp | hfg
    · rw [hap] at hfp
      cases hfp
    · exact hfg
  refine ⟨fun hdir => ?_, fun hdir => ?_⟩
  · obtain ⟨h1a, h1b⟩ := h1 hdir
    exact ⟨fun hpx g hg => ⟨h1a hpx g hg, hsem g (h1a hpx g hg)⟩,
      fun hpx g hg => ⟨h1b hpx g hg, hsem g (h1b hpx g hg)⟩⟩
  · obtain ⟨h2a, h2b⟩ := h2 hdir
    exact ⟨fun hpy g hg => ⟨h2a hpy g hg, hsem g (h2a hpy g hg)⟩,
      fun hpy g hg => ⟨h2b hpy g hg, hsem g (h2b hpy g hg)⟩⟩

/-- C4 witness word list. -/
def c4Words : List String := ["AB"]

/-- Witness for C4 at a concrete input: the horizontal placement of "AB"
at `(1, 0)` on a 3×3 grid (placement variable 21), letter 'A'; its
pre-start boundary cell `(0, 0)` is in-grid. -/
theorem c4_boundary_empty_witness :
    ((true : Bool) = true →
      (0 < 1 → ∀ g, ((encode c4Words 3 0).1).gridVars.lookup
          (1 - 1, 0, 'A') = some g →
        [litNeg 21, litNeg g] ∈ ((encode c4Words 3 0).1).enc.formula ∧
        (∀ a, satFormula a ((encode c4Words 3 0).1).enc.formula = true →
          a 21 = true → a g = false)) ∧
      (1 + "AB".length < 3 → ∀ g,
        ((encode c4Words 3 0).1).gridVars.lookup
          (1 + "AB".length, 0, 'A') = some g →
        [litNeg 21, litNeg g] ∈ ((encode c4Words 3 0).1).enc.formula ∧
        (∀ a, satFormula a ((encode c4Words 3 0).1).enc.formula = true →
          a 21 = true → a g = false))) ∧
    ((true : Bool) = false →
      (0 < 0 → ∀ g, ((encode c4Words 3 0).1).gridVars.lookup
          (1, 0 - 1, 'A') = some g →
        [litNeg 21, litNeg g] ∈ ((encode c4Words 3 0).1).enc.formula ∧
        (∀ a, satFormula a ((encode c4Words 3 0).1).enc.formula = true →
          a 21 = true → a g = false)) ∧
      (0 + "AB".length < 3 → ∀ g,
        ((encode c4Words 3 0).1).gridVars.lookup
          (1, 0 + "AB".length, 'A') = some g →
        [litNeg 21, litNeg g] ∈ ((encode c4Words 3 0).1).enc.formula ∧
        (∀ a, satFormula a ((encode c4Words 3 0).1).enc.formula = true →
          a 21 = true → a g = false))) :=
  c4_boundary_empty c4Words 3 0 "AB" 1 0 true 21 'A' (by decide) (by decide)
